import Mathlib

/-!
# ytplay: the line record extractor, the formatters, the result collector and
# the playback orchestrator of `ytplay.c`

Conventions of the embedding.

* A C string is the list of its characters before the terminating NUL
  (`CStr`); one `Char` stands for one C `char`.
* A pointer `p` into a string `json` is a pair `(rev, suf)`: `suf` is the text
  from `p` on and `rev` is the text before `p`, nearest character first, so
  that `rev.reverse ++ suf = json`.  `*p` is the head of `suf` (NUL when `suf`
  is empty), `p[-1]` is the head of `rev`, and `p == json` is `rev = []`.
* `snprintf(buf, n, ...)` stores the first `n - 1` characters of the formatted
  text.
* The POSIX build is modelled (`PATH_SEP` is `/`, `DEVNULL` is `/dev/null`).
* What the outside gives (the lines of a `popen` stream, the status of
  `system`) is an argument of the function that asks for it.
* The `%.1f` conversion of `printf` on a `double` is an argument (`fmt_f1`) of
  the functions that reach `fmt_views`; `printf_f1` is that conversion on
  IEEE 754 binary64, computed with exact integers.
-/

namespace Ytplay

/-- A C string: its characters before the terminating NUL. -/
abbrev CStr := List Char

/-- `#define MAX_RESULTS 25` -/
def MAX_RESULTS : Nat := 25

/-- `#define MAX_CMD 8192` -/
def MAX_CMD : Nat := 8192

/-- What `snprintf(buf, n, ...)` leaves in `buf` when the formatted text is `s`
(`n ≥ 1`): its first `n - 1` characters. -/
def snprintf (n : Nat) (s : CStr) : CStr := s.take (n - 1)

/-! ## json_get (ytplay.c, lines 148–200) -/

/-- The test `*p==' '||*p=='\t'`. -/
def isBlank (c : Char) : Bool := c == ' ' || c == '\t'

/-- `isdigit((unsigned char)c)` in the C locale. -/
def isdigit (c : Char) : Bool := decide ('0' ≤ c) && decide (c ≤ '9')

/-- `strstr(p, pat)`: the first position at or after `p` where `pat` starts,
as a pointer, or `none` for `NULL`. -/
def strstr (pat : List Char) : List Char → List Char → Option (List Char × List Char)
  | rev, [] => if pat.isEmpty then some (rev, []) else none
  | rev, c :: s =>
    if pat.isPrefixOf (c :: s) then some (rev, c :: s) else strstr pat (c :: rev) s

/-- Lines 155–157, on the text before the match (nearest character first):
`before = p - 1; while (before > json && blank(*before)) before--;` and then
the negation of `before >= json && *before != '{' && *before != ','`.
A match at `p == json` has `before < json` (a pointer before the array) and is
let through; `search_youtube` only passes lines that begin with `{`, where no
match stands at `p == json`. -/
def keyContext : List Char → Bool
  | [] => true
  | [c] => c == '{' || c == ','
  | c :: c2 :: r => if isBlank c then keyContext (c2 :: r) else (c == '{' || c == ',')

/-- `while (*p==' '||*p=='\t') p++;` -/
def skipBlanks : List Char → List Char → List Char × List Char
  | rev, [] => (rev, [])
  | rev, c :: s => if isBlank c then skipBlanks (c :: rev) s else (rev, c :: s)

/-- The `switch (*p)` of lines 172–179. -/
def unescape (c : Char) : Char :=
  if c = 'n' then '\n'
  else if c = 't' then '\t'
  else if c = '\\' then '\\'
  else if c = '"' then '"'
  else if c = '/' then '/'
  else '?'

/-- The string-value loop of lines 169–182, `lim` being `outlen - 1`: the
characters stored in `out[i..]`, starting to read at `p`. -/
def copyString (lim : Nat) : List Char → Nat → CStr
  | [], _ => []
  | c :: rest, i =>
    if c ≠ '"' ∧ i < lim then
      if c = '\\' then
        match rest with
        | [] => [c]
        | e :: rest2 => unescape e :: copyString lim rest2 (i + 1)
      else c :: copyString lim rest (i + 1)
    else []

/-- The numeric-value loop of lines 188–189. -/
def copyNumber (lim : Nat) : List Char → Nat → CStr
  | [], _ => []
  | c :: rest, i =>
    if (c = '-' ∨ isdigit c = true) ∧ i < lim then c :: copyNumber lim rest (i + 1) else []

/-- `strncmp(p, lit, strlen(lit)) == 0` -/
def startsWith (p : List Char) (lit : String) : Bool := lit.toList.isPrefixOf p

/-- Lines 165–197: the value at `p`, after the colon and the blanks.  The
result is the return value and the content of `out` after the call.  The
bound `outlen - 1` is that of the source for `outlen ≥ 1`; every caller
passes the size of an array. -/
def readValue (out : CStr) (outlen : Nat) : List Char → Int × CStr
  | [] => (0, out)
  | c :: rest =>
    if c = '"' then (1, copyString (outlen - 1) rest 0)
    else if isdigit c || c == '-' then (1, copyNumber (outlen - 1) (c :: rest) 0)
    else if startsWith (c :: rest) "null" || startsWith (c :: rest) "false"
        || startsWith (c :: rest) "true" then (0, [])
    else (0, out)

/-- One iteration of the `while ((p = strstr(p, pat)) != NULL)` loop of lines
153–198, `p` being `(rev, suf)` before the call of `strstr`: either `json_get`
returns (`Sum.inl`, with the return value and the content of `out`), or the
loop goes on with a new `p` (`Sum.inr`). -/
def json_get_step (pat : List Char) (out : CStr) (outlen : Nat) (rev suf : List Char) :
    (Int × CStr) ⊕ (List Char × List Char) :=
  match strstr pat rev suf with
  | none => .inl (0, out)
  | some (rev1, p) =>
    if keyContext rev1 then
      -- p += strlen(pat); skip blanks
      let q := skipBlanks (pat.reverse ++ rev1) (p.drop pat.length)
      match q.2 with
      | [] => .inr q
      | c :: rest =>
        if c = ':' then .inl (readValue out outlen (skipBlanks (c :: q.1) rest).2)
        else .inr q
    else
      -- p++; continue
      match p with
      | [] => .inl (0, out)
      | c :: rest => .inr (c :: rev1, rest)

/-- The loop of lines 153–198 with one unit of fuel per iteration; `none` only
when the fuel runs out. -/
def json_get_loop (pat : List Char) (out : CStr) (outlen : Nat) :
    Nat → List Char → List Char → Option (Int × CStr)
  | 0, _, _ => none
  | fuel + 1, rev, suf =>
    match json_get_step pat out outlen rev suf with
    | .inl res => some res
    | .inr q => json_get_loop pat out outlen fuel q.1 q.2

/-- `snprintf(pat, sizeof(pat), "\"%s\"", key)` with `char pat[256]`. -/
def keyPattern (key : CStr) : List Char := snprintf 256 ('"' :: key ++ ['"'])

/-- The extractor `json_get(json, key, out, outlen)`: the return value and the
content of `out` after the call.  Every iteration of the loop moves `p`
forward, so `json.length + 1` iterations are enough
(`json_get_loop_terminates`). -/
def json_get (json key out : CStr) (outlen : Nat) : Int × CStr :=
  (json_get_loop (keyPattern key) out outlen (json.length + 1) [] json).getD (0, out)

/-- The rest of the run of `json_get` when its loop is at `p = (rev, suf)`, about
to call `strstr`. -/
def json_get_from (pat : List Char) (out : CStr) (outlen : Nat) (rev suf : List Char) :
    Int × CStr :=
  (json_get_loop pat out outlen (suf.length + 1) rev suf).getD (0, out)

/-! ## Formatters (ytplay.c, lines 203–216) -/

/-- The conversion `%ld` (and `%d`) of `printf`. -/
def fmt_ld (v : Int) : CStr :=
  if v < 0 then '-' :: Nat.toDigits 10 v.natAbs else Nat.toDigits 10 v.toNat

/-- The conversion `%02ld` of `printf`: `%ld` padded with zeros to two columns. -/
def fmt_02ld (v : Int) : CStr :=
  List.replicate (2 - (fmt_ld v).length) '0' ++ fmt_ld v

/-- `fmt_duration(secs, out, n)`: the content of `out` after the call.  C
division and remainder truncate (`Int.tdiv`, `Int.tmod`). -/
def fmt_duration (secs : Int) (n : Nat) : CStr :=
  if secs ≤ 0 then snprintf n "?".toList
  else
    let h := secs.tdiv 3600
    let m := (secs.tmod 3600).tdiv 60
    let s := secs.tmod 60
    if h > 0 then
      snprintf n (fmt_ld h ++ ":".toList ++ fmt_02ld m ++ ":".toList ++ fmt_02ld s)
    else snprintf n (fmt_ld m ++ ":".toList ++ fmt_02ld s)

/-- `fmt_views(v, out, n)`: the content of `out` after the call.  The
conversion `%.1f` of a `double` quotient belongs to the C library and its
floating-point arithmetic; it is the parameter `fmt_f1`, `fmt_f1 v d` being
the text `printf("%.1f", v / (double) d)` prints (`printf_f1` on IEEE 754
binary64). -/
def fmt_views (fmt_f1 : Int → Nat → CStr) (v : Int) (n : Nat) : CStr :=
  if v ≤ 0 then snprintf n "?".toList
  else if v ≥ 1000000 then snprintf n (fmt_f1 v 1000000 ++ "M".toList)
  else if v ≥ 1000 then snprintf n (fmt_f1 v 1000 ++ "K".toList)
  else snprintf n (fmt_ld v)

/-- `isspace` in the C locale. -/
def isspace (c : Char) : Bool :=
  c == ' ' || c == '\t' || c == '\n' || c == '\r' || c == Char.ofNat 11 || c == Char.ofNat 12

/-- `LONG_MAX` of a 64-bit `long`. -/
def LONG_MAX : Int := 2 ^ 63 - 1

/-- The digit loop of `strtol`: the value of the leading run of digits, `acc`
being the value read so far. -/
def atolDigits : List Char → Nat → Nat
  | [], acc => acc
  | c :: s, acc => if isdigit c then atolDigits s (acc * 10 + (c.toNat - 48)) else acc

/-- `atol(s)`, as `strtol(s, NULL, 10)`: white space, an optional sign, the
leading digits; a value out of the range of `long` is clamped. -/
def atol (s : CStr) : Int :=
  match s.dropWhile isspace with
  | [] => 0
  | c :: t =>
    if c = '-' then max (-(atolDigits t 0 : Int)) (-LONG_MAX - 1)
    else if c = '+' then min (atolDigits t 0 : Int) LONG_MAX
    else min (atolDigits (c :: t) 0 : Int) LONG_MAX

/-- `strncpy(dst, src, n)` for a literal `src` shorter than `n`. -/
def strncpy (src : CStr) (n : Nat) : CStr := src.take n

/-! ## Data (ytplay.c, lines 76–108) -/

/-- `VideoResult`: the string held by each field. -/
structure VideoResult where
  title : CStr
  id : CStr
  duration : CStr
  views : CStr
  channel : CStr
  deriving DecidableEq, Repr, Inhabited

/-- `Config`. -/
structure Config where
  query : CStr
  num_results : Int
  player : CStr
  quality : CStr
  stream : Int
  audio_only : Int
  output_dir : CStr
  keep : Int
  subtitle_lang : CStr
  extra_player : CStr
  extra_ytdlp : CStr
  no_banner : Int
  quiet : Int
  verbose : Int
  direct_play : Int
  deriving DecidableEq, Repr, Inhabited

/-- The globals `g_results` (its `MAX_RESULTS` slots) and `g_nresults`. -/
structure Globals where
  g_results : List VideoResult
  g_nresults : Nat
  deriving DecidableEq, Repr

/-- How a function ends: it returns, or it calls `die` (`exit(1)`). -/
inductive Outcome (α : Type) where
  | ret (a : α)
  | die (msg : String)
  deriving DecidableEq, Repr

/-! ## search_youtube (ytplay.c, lines 390–445) -/

/-- The single quote character. -/
def SQ : Char := Char.ofNat 39

/-- The escaping loop of lines 393–396, `sizeof(safe_q)` being 4096: the
characters stored in `safe_q[j..]`, reading the query from `s`. -/
def escapeLoop : List Char → Nat → CStr
  | [], _ => []
  | c :: s, j =>
    if j < 4096 - 5 then
      if c = SQ then SQ :: '\\' :: SQ :: SQ :: escapeLoop s (j + 4)
      else c :: escapeLoop s (j + 1)
    else []

/-- The command of lines 400–404. -/
def search_cmd (c : Config) : CStr :=
  snprintf MAX_CMD
    ("yt-dlp --no-warnings --flat-playlist --dump-json".toList
      ++ " ".toList ++ [SQ] ++ "ytsearch".toList ++ fmt_ld c.num_results ++ ":".toList
      ++ escapeLoop c.query 0 ++ [SQ]
      ++ " 2>/dev/null".toList)

/-- The body of the `while` loop, lines 417–439, for one line read by `fgets`.
`r` is the slot `g_results[g_nresults]`; it is written to as the fields are
extracted, also when the line is given up.  `tmp` is the local buffer. -/
def collect_line (fmt_f1 : Int → Nat → CStr) (line : CStr) (g : Globals) : Globals :=
  if line.head? ≠ some '{' then g
  else
    let r := g.g_results.getD g.g_nresults default
    let t := json_get line "title".toList r.title 512
    let r := { r with title := t.2 }
    if t.1 = 0 then { g with g_results := g.g_results.set g.g_nresults r }
    else
      let i := json_get line "id".toList r.id 32
      let r := { r with id := i.2 }
      if i.1 = 0 then { g with g_results := g.g_results.set g.g_nresults r }
      else
        let d := json_get line "duration".toList [] 64
        let r := { r with duration :=
          if d.1 ≠ 0 ∧ d.2 ≠ [] then fmt_duration (atol d.2) 24 else strncpy "?".toList 24 }
        let v := json_get line "view_count".toList d.2 64
        let r := { r with views :=
          if v.1 ≠ 0 ∧ v.2 ≠ [] then fmt_views fmt_f1 (atol v.2) 16 else strncpy "?".toList 16 }
        let ch := json_get line "channel".toList r.channel 128
        let up := json_get line "uploader".toList ch.2 128
        let r := { r with channel :=
          if ch.1 ≠ 0 then ch.2 else if up.1 ≠ 0 then up.2 else strncpy "Unknown".toList 128 }
        { g_results := g.g_results.set g.g_nresults r, g_nresults := g.g_nresults + 1 }

/-- The loop `while (fgets(line, JSON_LINE_MAX, fp) && g_nresults < MAX_RESULTS)`
over the lines `fgets` returns, until the end of the stream. -/
def collect (fmt_f1 : Int → Nat → CStr) : List CStr → Globals → Globals
  | [], g => g
  | line :: more, g =>
    if g.g_nresults < MAX_RESULTS then collect fmt_f1 more (collect_line fmt_f1 line g)
    else g

/-- `search_youtube(c)`.  `popen cmd` is what `POPEN(cmd, "r")` gives: `none`
for `NULL`, else the lines `fgets` reads from the stream, in order.  `g0` is
the content of `g_results` on entry.  The result is the globals on return (the
return value is `g_nresults`).  `malloc` is taken to succeed. -/
def search_youtube (fmt_f1 : Int → Nat → CStr) (popen : CStr → Option (List CStr))
    (g0 : List VideoResult) (c : Config) : Outcome Globals :=
  match popen (search_cmd c) with
  | none => .die "Failed to launch yt-dlp. Is it installed and in PATH?"
  | some lines => .ret (collect fmt_f1 lines { g_results := g0, g_nresults := 0 })

/-! ## play_video (ytplay.c, lines 484–569) -/

/-- `trim_nl`: the trailing `'\n'`, `'\r'` and `' '` are cut off. -/
def trim_nl (s : CStr) : CStr :=
  (s.reverse.dropWhile (fun c => c == '\n' || c == '\r' || c == ' ')).reverse

/-- One call `play_video` makes to the outside, named after its place in the
source. -/
inductive Call where
  /-- `POPEN(gcmd, "r")`, line 512: the `yt-dlp -g` URL resolution. -/
  | resolve (cmd : CStr)
  /-- `system(cmd)`, lines 524 and 564: the player. -/
  | player (cmd : CStr)
  /-- `MKDIR(c->output_dir)`, line 531. -/
  | mkdir (dir : CStr)
  /-- `system(dl_cmd)`, line 543: the download. -/
  | download (cmd : CStr)
  /-- `POPEN(find_cmd, "r")`, line 553: the directory listing. -/
  | listing (cmd : CStr)
  /-- `remove(dl_path)`, line 566. -/
  | remove (path : CStr)
  deriving DecidableEq, Repr

/-- The answers of the outside to the calls of `play_video`, one field for each
place of the source that reads an answer.  For a `POPEN` the answer is `none`
when it gives `NULL`, `some none` when the stream is empty (the `fgets` gives
`NULL`) and `some (some l)` when the first line of the stream is `l`. -/
structure World where
  resolve : CStr → Option (Option CStr)
  player : CStr → Int
  download : CStr → Int
  listing : CStr → Option (Option CStr)

/-- `fgets(buf, n, fp)` on a stream whose first line is `l`. -/
def fgets (n : Nat) (l : CStr) : CStr := l.take (n - 1)

/-- The watch URL of line 486, `char url[128]`. -/
def watch_url (r : VideoResult) : CStr :=
  snprintf 128 ("https://www.youtube.com/watch?v=".toList ++ r.id)

/-- The test of line 495. -/
def is_native (c : Config) : Bool :=
  c.player == "mpv".toList || c.player == "iina".toList

/-- The player command of lines 497–503. -/
def native_cmd (c : Config) (r : VideoResult) : CStr :=
  snprintf MAX_CMD
    (c.player ++ " --ytdl-format=".toList ++ [SQ] ++ c.quality ++ [SQ]
      ++ (if c.subtitle_lang ≠ [] then " --sub-auto=all".toList else [])
      ++ " ".toList ++ c.extra_player ++ " ".toList ++ [SQ] ++ watch_url r ++ [SQ])

/-- The resolution command of lines 507–509. -/
def resolve_cmd (c : Config) (r : VideoResult) : CStr :=
  snprintf MAX_CMD
    ("yt-dlp --no-warnings -g -f ".toList ++ [SQ] ++ c.quality ++ [SQ]
      ++ " ".toList ++ [SQ] ++ watch_url r ++ [SQ] ++ " 2>/dev/null".toList)

/-- The player command of lines 518 and 560, on a stream URL or a file. -/
def generic_cmd (c : Config) (target : CStr) : CStr :=
  snprintf MAX_CMD
    (c.player ++ " ".toList ++ c.extra_player ++ " ".toList ++ [SQ] ++ target ++ [SQ])

/-- The download command of lines 534–538. -/
def download_cmd (c : Config) (r : VideoResult) : CStr :=
  snprintf MAX_CMD
    ("yt-dlp --no-warnings -f ".toList ++ [SQ] ++ c.quality ++ [SQ]
      ++ " -o ".toList ++ [SQ] ++ c.output_dir ++ "/%(title)s.%(ext)s".toList ++ [SQ]
      ++ " ".toList ++ (if c.extra_ytdlp ≠ [] then c.extra_ytdlp else [])
      ++ " ".toList ++ [SQ] ++ watch_url r ++ [SQ])

/-- The listing command of line 552. -/
def find_cmd (c : Config) : CStr :=
  snprintf MAX_CMD
    ("ls -t ".toList ++ [SQ] ++ c.output_dir ++ [SQ] ++ " 2>/dev/null | head -1".toList)

/-- The path of line 554, `char dl_path[2048]`, from the name `fn` read from
the listing with `char fn[1024]`. -/
def dl_path (c : Config) (fn : CStr) : CStr :=
  snprintf 2048 (c.output_dir ++ "/".toList ++ trim_nl (fgets 1024 fn))

/-- `play_video(c, r)`: the calls made to the outside, in order, and how the
function ends.  What it prints is left out. -/
def play_video (w : World) (c : Config) (r : VideoResult) : List Call × Outcome Int :=
  if c.stream ≠ 0 then
    if is_native c then
      ([.player (native_cmd c r)], .ret (w.player (native_cmd c r)))
    else
      match w.resolve (resolve_cmd c r) with
      | none => ([.resolve (resolve_cmd c r)], .die "Failed to get stream URL.")
      | some none => ([.resolve (resolve_cmd c r)], .die "yt-dlp returned no stream URL.")
      | some (some l) =>
        let cmd := generic_cmd c (trim_nl (fgets 4096 l))
        ([.resolve (resolve_cmd c r), .player cmd], .ret (w.player cmd))
  else
    if w.download (download_cmd c r) ≠ 0 then
      ([.mkdir c.output_dir, .download (download_cmd c r)], .die "yt-dlp download failed.")
    else
      let found : CStr :=
        match w.listing (find_cmd c) with
        | some (some fn) => dl_path c fn
        | _ => []
      if found = [] then
        ([.mkdir c.output_dir, .download (download_cmd c r), .listing (find_cmd c)],
          .die "Could not find downloaded file")
      else
        let cmd := generic_cmd c found
        ([.mkdir c.output_dir, .download (download_cmd c r), .listing (find_cmd c),
            .player cmd] ++ (if c.keep = 0 then [.remove found] else []),
          .ret (w.player cmd))

/-! ## Reference notions used in the statements -/

/-- A token of a shell command line. -/
inductive ShToken where
  | word (w : List Char)
  | op (c : Char)
  deriving DecidableEq, Repr

/-- Where the tokenizer is: between tokens, in a word outside quotes, or in a
word inside single quotes. -/
inductive ShMode where
  | gap
  | bare
  | quoted
  deriving DecidableEq, Repr

/-- The characters that end a word and are an operator when not quoted. -/
def isShOp (c : Char) : Bool :=
  c == ';' || c == '&' || c == '|' || c == '<' || c == '>' || c == '(' || c == ')'

/-- The blanks that separate words. -/
def isShBlank (c : Char) : Bool := c == ' ' || c == '\t' || c == '\n'

/-- Token recognition of the POSIX shell (XCU 2.2 and 2.3) for command lines
made of blanks, the operator characters, backslash escapes and single quotes:
inside single quotes every character stands for itself up to the closing
quote; outside, a backslash makes the next character stand for itself, a
blank ends a word and an operator character is a token of its own.  `cur` is
the word read so far.  The result is `none` when a single quote is never
closed. -/
def shTokensAux : ShMode → List Char → List Char → Option (List ShToken)
  | .gap, _, [] => some []
  | .bare, cur, [] => some [.word cur]
  | .quoted, _, [] => none
  | .quoted, cur, c :: s =>
    if c = SQ then shTokensAux .bare cur s else shTokensAux .quoted (cur ++ [c]) s
  | .gap, _, c :: s =>
    if isShBlank c then shTokensAux .gap [] s
    else if isShOp c then (shTokensAux .gap [] s).map (ShToken.op c :: ·)
    else if c = SQ then shTokensAux .quoted [] s
    else if c = '\\' then
      match s with
      | [] => some [.word [c]]
      | e :: s2 => shTokensAux .bare [e] s2
    else shTokensAux .bare [c] s
  | .bare, cur, c :: s =>
    if isShBlank c then (shTokensAux .gap [] s).map (ShToken.word cur :: ·)
    else if isShOp c then (shTokensAux .gap [] s).map (fun t => .word cur :: .op c :: t)
    else if c = SQ then shTokensAux .quoted cur s
    else if c = '\\' then
      match s with
      | [] => some [.word (cur ++ [c])]
      | e :: s2 => shTokensAux .bare (cur ++ [e]) s2
    else shTokensAux .bare (cur ++ [c]) s

/-- The tokens of a command line. -/
def shTokens (cmd : List Char) : Option (List ShToken) := shTokensAux .gap [] cmd

/-- One character of a JSON string as it is written between the quotes: a
character standing for itself, or a backslash escape. -/
inductive JChar where
  | plain (c : Char)
  | esc (e : Char)
  deriving DecidableEq, Repr

/-- The text of one character of a JSON string. -/
def JChar.render : JChar → List Char
  | .plain c => [c]
  | .esc e => ['\\', e]

/-- The text of a JSON string between its quotes. -/
def renderBody : List JChar → List Char
  | [] => []
  | x :: xs => x.render ++ renderBody xs

/-- The escape table of the specification: `\n`, `\t`, `\\`, `\"` and `\/`
stand for newline, tab, backslash, double quote and slash.  `none` for an
escape outside the table. -/
def jDecodeChar : JChar → Option Char
  | .plain c => some c
  | .esc e =>
    if e = 'n' then some '\n'
    else if e = 't' then some '\t'
    else if e = '\\' then some '\\'
    else if e = '"' then some '"'
    else if e = '/' then some '/'
    else none

/-- The value a JSON string stands for, when it only uses the escapes of the
table. -/
def jDecode : List JChar → Option (List Char)
  | [] => some []
  | x :: xs =>
    match jDecodeChar x, jDecode xs with
    | some c, some r => some (c :: r)
    | _, _ => none

/-- A value of a flat JSON object: a string, or the text of a number or of one
of the literals. -/
inductive JValue where
  | str (body : List JChar)
  | scalar (text : List Char)
  deriving DecidableEq, Repr

/-- One member of a flat JSON object with the white space around its tokens:
`ws0 "key" ws1 : ws2 value ws3`. -/
structure JField where
  ws0 : List Char
  key : List JChar
  ws1 : List Char
  ws2 : List Char
  val : JValue
  ws3 : List Char
  deriving DecidableEq, Repr

/-- The text of a value. -/
def JValue.render : JValue → List Char
  | .str body => '"' :: renderBody body ++ ['"']
  | .scalar text => text

/-- The text of a member. -/
def JField.render (f : JField) : List Char :=
  f.ws0 ++ '"' :: renderBody f.key ++ '"' :: f.ws1 ++ ':' :: f.ws2 ++ f.val.render ++ f.ws3

/-- The text of the members, separated by commas. -/
def renderFields : List JField → List Char
  | [] => []
  | [f] => f.render
  | f :: g :: r => f.render ++ ',' :: renderFields (g :: r)

/-- The text of a flat JSON object. -/
def renderObj (fs : List JField) : List Char := '{' :: renderFields fs ++ ['}']

/-- A character that may stand for itself in a JSON string: not the double
quote, not the backslash, not a control character. -/
def JChar.wf : JChar → Bool
  | .plain c => c != '"' && c != '\\' && decide (32 ≤ c.toNat)
  | .esc e => "\"\\/bfnrtu".toList.contains e

/-- The characters of a number or a literal: letters, digits, sign, point. -/
def isScalarChar (c : Char) : Bool :=
  c.isAlphanum || c == '-' || c == '+' || c == '.'

/-- A well-formed value. -/
def JValue.wf : JValue → Bool
  | .str body => body.all JChar.wf
  | .scalar text => !text.isEmpty && text.all isScalarChar

/-- A well-formed member whose white space is made of spaces and tabs. -/
def JField.wf (f : JField) : Bool :=
  f.ws0.all isBlank && f.key.all JChar.wf && f.ws1.all isBlank && f.ws2.all isBlank
    && f.val.wf && f.ws3.all isBlank

/-- The value of the first member whose key is written `key`. -/
def jLookup (fs : List JField) (key : List Char) : Option JValue :=
  (fs.find? (fun f => renderBody f.key == key)).map (·.val)

/-- A valid line for `search_youtube`: it begins with the object-start marker
and `json_get` yields both `title` and `id`. -/
def valid_line (line : CStr) : Bool :=
  line.head? == some '{'
    && (json_get line "title".toList [] 512).1 != 0
    && (json_get line "id".toList [] 32).1 != 0

/-- The record produced from a valid line: the fields as the extractor and the
formatters give them. -/
def record_of (fmt_f1 : Int → Nat → CStr) (line : CStr) : VideoResult :=
  let d := json_get line "duration".toList [] 64
  let v := json_get line "view_count".toList [] 64
  let ch := json_get line "channel".toList [] 128
  let up := json_get line "uploader".toList [] 128
  { title := (json_get line "title".toList [] 512).2
    id := (json_get line "id".toList [] 32).2
    duration := if d.1 ≠ 0 ∧ d.2 ≠ [] then fmt_duration (atol d.2) 24 else "?".toList
    views := if v.1 ≠ 0 ∧ v.2 ≠ [] then fmt_views fmt_f1 (atol v.2) 16 else "?".toList
    channel := if ch.1 ≠ 0 then ch.2 else if up.1 ≠ 0 then up.2 else "Unknown".toList }

/-- The duration format in the words of the specification: `?` for a value
that is not positive, `M:SS` under an hour, `H:MM:SS` from an hour on, the
first number as it is and the others with two digits. -/
def duration_ref (secs : Int) : CStr :=
  let two (k : Nat) : CStr := [Nat.digitChar (k / 10), Nat.digitChar (k % 10)]
  if secs ≤ 0 then ['?']
  else if secs < 3600 then
    Nat.toDigits 10 (secs.toNat / 60) ++ [':'] ++ two (secs.toNat % 60)
  else
    Nat.toDigits 10 (secs.toNat / 3600) ++ [':'] ++ two (secs.toNat % 3600 / 60)
      ++ [':'] ++ two (secs.toNat % 60)

/-- The call is the URL resolution. -/
def Call.isResolve : Call → Bool
  | .resolve _ => true
  | _ => false

/-- The call launches the player. -/
def Call.isPlayer : Call → Bool
  | .player _ => true
  | _ => false

/-- The call removes a file. -/
def Call.isRemove : Call → Bool
  | .remove _ => true
  | _ => false

/-- The value `search_youtube` returns, `g_nresults`; `none` when it ends in
`die`. -/
def search_youtube_ret (fmt_f1 : Int → Nat → CStr) (popen : CStr → Option (List CStr))
    (g0 : List VideoResult) (c : Config) : Option Nat :=
  match search_youtube fmt_f1 popen g0 c with
  | .ret g => some g.g_nresults
  | .die _ => none

/-- The part of the query the escaping loop of lines 393–396 gets through
before `j` reaches `sizeof(safe_q) - 5`: the condition and the steps of `j`
are those of `escapeLoop`. -/
def escapeKept : List Char → Nat → List Char
  | [], _ => []
  | c :: s, j =>
    if j < 4096 - 5 then c :: escapeKept s (j + (if c = SQ then 4 else 1)) else []

/-- The tokens of the search command when the shell hands the text `q` to the
backend as the query: the program, its three options, the one word
`ytsearch<N>:<q>` and the redirection of the diagnostics. -/
def search_tokens (c : Config) (q : List Char) : List ShToken :=
  [ .word "yt-dlp".toList, .word "--no-warnings".toList, .word "--flat-playlist".toList,
    .word "--dump-json".toList,
    .word ("ytsearch".toList ++ fmt_ld c.num_results ++ ":".toList ++ q),
    .word "2".toList, .op '>', .word "/dev/null".toList ]

/-- The escaping of a text for a place between single quotes: every single
quote becomes the four characters quote, backslash, quote, quote. -/
def shell_escape : List Char → List Char
  | [] => []
  | c :: s => if c = SQ then SQ :: '\\' :: SQ :: SQ :: shell_escape s else c :: shell_escape s

/-- The text of the search command before `snprintf` cuts it to `MAX_CMD`. -/
def search_cmd_text (c : Config) : CStr :=
  "yt-dlp --no-warnings --flat-playlist --dump-json".toList
    ++ " ".toList ++ [SQ] ++ "ytsearch".toList ++ fmt_ld c.num_results ++ ":".toList
    ++ escapeLoop c.query 0 ++ [SQ]
    ++ " 2>/dev/null".toList

/-- The text before an occurrence of the quoted key ends, blanks left aside,
in the object-start marker or in the field separator. -/
def preceded_by_marker (before : List Char) : Bool :=
  match before.reverse.dropWhile isBlank with
  | [] => false
  | c :: _ => c == '{' || c == ','

/-- The quoted key `pat` occurs in `json` at index `i` and is preceded, blanks
left aside, by one of the two markers. -/
def marked_at (pat json : List Char) (i : Nat) : Bool :=
  pat.isPrefixOf (json.drop i) && preceded_by_marker (json.take i)

/-- Some occurrence of the quoted key in the line is preceded by a marker. -/
def any_marked (pat json : List Char) : Bool :=
  (List.range (json.length + 1)).any (marked_at pat json)

/-- The characters the numeric loop copies: the minus sign and the digits. -/
def isNumChar (c : Char) : Bool := c == '-' || isdigit c

/-- A text made of an optional single leading minus sign followed only by
digits: no minus sign after the first position, and digits only there. -/
def signed_digits : List Char → Bool
  | [] => true
  | c :: s => (c == '-' || isdigit c) && s.all isdigit

/-- The integer nearest to `a / b`, ties to even. -/
def rne_div (a b : Nat) : Nat :=
  if 2 * (a % b) < b then a / b
  else if b < 2 * (a % b) then a / b + 1
  else if (a / b) % 2 = 0 then a / b
  else a / b + 1

/-- The binary exponent of `n ≥ 1`, the `e` with `2 ^ e ≤ n < 2 ^ (e + 1)`,
by halving at most `fuel` times. -/
def exponent_aux : Nat → Nat → Nat
  | 0, _ => 0
  | fuel + 1, n => if n < 2 then 0 else exponent_aux fuel (n / 2) + 1

/-- The binary exponent of `1 ≤ n < 2 ^ 64`. -/
def exponent (n : Nat) : Nat := exponent_aux 64 n

/-- The conversion `(double) v` of a positive `long`: exact under `2 ^ 53`,
else `v` rounded to 53 significant bits. -/
def double_of_long (v : Nat) : Nat :=
  if v < 2 ^ 53 then v
  else rne_div v (2 ^ (exponent v - 52)) * 2 ^ (exponent v - 52)

/-- The quotient `x / d` of two `double`s that hold the integers `x ≥ d ≥ 1`,
with `x / d < 2 ^ 53`: the exact quotient rounded to 53 significant bits.  The
result `(m, s)` stands for the `double` `m / 2 ^ s`. -/
def double_div (x d : Nat) : Nat × Nat :=
  (rne_div (x * 2 ^ (52 - exponent (x / d))) d, 52 - exponent (x / d))

/-- The text of a number of tenths `t`: `t / 10`, a point, `t % 10`. -/
def fmt_tenths (t : Nat) : CStr :=
  Nat.toDigits 10 (t / 10) ++ ['.'] ++ [Nat.digitChar (t % 10)]

/-- The text `printf("%.1f", v / (double) d)` prints for `v ≥ d ≥ 1`, the only
arguments `fmt_views` passes: the `double` quotient rounded to tenths, ties to
even on its exact value. -/
def printf_f1 (v : Int) (d : Nat) : CStr :=
  let q := double_div (double_of_long v.toNat) d
  fmt_tenths (rne_div (10 * q.1) (2 ^ q.2))

/-! ## Sample inputs -/

/-- A world in which the URL resolution prints one line, the download fails
and the player succeeds. -/
def sampleWorld : World :=
  ⟨fun _ => some (some "http://u\n".toList), fun _ => 0, fun _ => 1, fun _ => none⟩

/-- A configuration: stream mode, player `vlc`. -/
def sampleStream : Config :=
  { (default : Config) with
    query := "test".toList, num_results := 3, player := "vlc".toList,
    quality := "best".toList, stream := 1, output_dir := "/tmp/ytplay".toList }

/-- A configuration: download mode, player `mpv`, files removed after playback. -/
def sampleDownload : Config :=
  { sampleStream with player := "mpv".toList, stream := 0, keep := 0 }

/-- A record. -/
def sampleResult : VideoResult :=
  { title := "T".toList, id := "abc".toList, duration := "0:45".toList,
    views := "999".toList, channel := "Unknown".toList }

/-- A stand-in for the `%.1f` conversion in the samples: one decimal, cut off
rather than rounded. -/
def sampleFmt (v : Int) (d : Nat) : CStr :=
  fmt_ld (v * 10 / d / 10) ++ ".".toList ++ fmt_ld (v * 10 / d % 10)

/-- The content of `g_results` at program start: 25 zeroed slots. -/
def sampleSlots : List VideoResult := List.replicate 25 default

/-- A backend output: two valid lines and, between them, a line without `id`. -/
def sampleLines : List CStr :=
  [ "\x7b\"id\": \"abc\", \"title\": \"First\", \"duration\": 125, \"view_count\": 999\x7d\n".toList,
    "\x7b\"title\": \"No id here\"\x7d\n".toList,
    "\x7b\"title\": \"Second\", \"id\": \"xyz\", \"channel\": \"Ch\"\x7d\n".toList ]

/-- A backend that prints `sampleLines` whatever the command. -/
def samplePopen : CStr → Option (List CStr) := fun _ => some sampleLines

/-- A backend that prints two valid lines whatever the count asked for. -/
def twoLinesPopen : CStr → Option (List CStr) := fun _ =>
  some [ "\x7b\"id\": \"abc\", \"title\": \"First\"\x7d\n".toList,
         "\x7b\"id\": \"xyz\", \"title\": \"Second\"\x7d\n".toList ]

/-- A configuration whose query is 1024 single quotes (it fits `query[2048]`). -/
def quotesConfig : Config := { sampleStream with query := List.replicate 1024 SQ }

/-- A configuration whose query holds one single quote. -/
def quoteConfig : Config := { sampleStream with query := [Char.ofNat 105, Char.ofNat 116, SQ, Char.ofNat 115] }

/-- A configuration whose quality selector holds single quotes, as the
option `-q` can set it: player `mpv`, stream mode. -/
def injectConfig : Config :=
  { sampleStream with
    player := "mpv".toList
    quality := [Char.ofNat 120, SQ, Char.ofNat 59, Char.ofNat 105, Char.ofNat 100,
      Char.ofNat 59, SQ] }

/-- A configuration whose output directory holds a single quote, as the option
`-o` can set it: download mode. -/
def injectDirConfig : Config :=
  { sampleDownload with output_dir := [Char.ofNat 100, SQ, Char.ofNat 32, SQ, Char.ofNat 101] }

/-- The key `title` as written in a line. -/
def titleKey : List JChar := "title".toList.map JChar.plain

/-- The key `id` as written in a line. -/
def idKey : List JChar := "id".toList.map JChar.plain

/-- The members of the object `{"id" : "xyz", "n":12,	"title": "a\nb\/c" }`. -/
def sampleFields : List JField :=
  [ ⟨[], idKey, [' '], [' '], .str ("xyz".toList.map JChar.plain), []⟩,
    ⟨[' '], [.plain 'n'], [], [], .scalar "12".toList, []⟩,
    ⟨['\t'], titleKey, [], [' '],
      .str [.plain 'a', .esc 'n', .plain 'b', .esc '/', .plain 'c'], [' ']⟩ ]

/-- The members of an object whose `id` has 32 characters. -/
def longIdFields : List JField :=
  [ ⟨[], titleKey, [], [], .str [.plain 't'], []⟩,
    ⟨[], idKey, [], [], .str (List.replicate 32 (.plain 'a')), []⟩ ]

/-- The members of the object `{"n":1-2,"m": -45 }`. -/
def minusFields : List JField :=
  [ ⟨[], [.plain 'n'], [], [], .scalar "1-2".toList, []⟩,
    ⟨[], [.plain 'm'], [], [' '], .scalar "-45".toList, [' ']⟩ ]

/-! ## Proofs: the duration formatter -/

theorem toDigits_two_digits (m : Nat) (h : m < 100) :
    List.replicate (2 - (Nat.toDigits 10 m).length) '0' ++ Nat.toDigits 10 m
      = [Nat.digitChar (m / 10), Nat.digitChar (m % 10)] := by
  revert m
  decide

theorem fmt_ld_natCast (k : Nat) : fmt_ld (k : Int) = Nat.toDigits 10 k := by
  simp [fmt_ld]

theorem fmt_02ld_natCast (k : Nat) (h : k < 100) :
    fmt_02ld (k : Int) = [Nat.digitChar (k / 10), Nat.digitChar (k % 10)] := by
  unfold fmt_02ld
  rw [fmt_ld_natCast]
  exact toDigits_two_digits k h

theorem toDigits_length_le (k e : Nat) (h : k < 10 ^ e) (he : 0 < e) :
    (Nat.toDigits 10 k).length ≤ e :=
  Nat.toDigitsCore_length 10 (by decide) (k + 1) k e h he

theorem snprintf_of_fits (n : Nat) (s : CStr) (h : s.length < n) : snprintf n s = s := by
  unfold snprintf
  exact List.take_of_length_le (by omega)

theorem fmt_duration_natCast (k n : Nat) (hk : 0 < k) (hhi : k < 2 ^ 63) (hn : 23 ≤ n) :
    fmt_duration (k : Int) n = duration_ref (k : Int) := by
  have hpos : ¬ ((k : Int) ≤ 0) := by omega
  have h1 : (k : Int).tdiv 3600 = ((k / 3600 : Nat) : Int) := (Int.ofNat_tdiv k 3600).symm
  have h2 : ((k : Int).tmod 3600).tdiv 60 = ((k % 3600 / 60 : Nat) : Int) := by
    rfl
  have h3 : (k : Int).tmod 60 = ((k % 60 : Nat) : Int) := (Int.ofNat_tmod k 60).symm
  have hm : k % 3600 / 60 < 100 := by omega
  have hs : k % 60 < 100 := by omega
  unfold fmt_duration duration_ref
  simp only [hpos, if_false, h1, h2, h3, Int.toNat_ofNat]
  by_cases hh : k < 3600
  · have hz : k / 3600 = 0 := by omega
    have hlt : (k : Int) < 3600 := by omega
    have hmm : k % 3600 / 60 = k / 60 := by omega
    simp only [hz, hlt, if_true, hmm, Nat.cast_zero, gt_iff_lt, lt_self_iff_false, if_false]
    rw [fmt_02ld_natCast _ hs, fmt_ld_natCast]
    apply snprintf_of_fits
    have := toDigits_length_le (k / 60) 2 (by omega) (by decide)
    simp
    omega
  · have hz : 0 < k / 3600 := by omega
    have hlt : ¬ ((k : Int) < 3600) := by omega
    have hgt : ((k / 3600 : Nat) : Int) > 0 := by omega
    simp only [hgt, hlt, if_true, if_false]
    rw [fmt_02ld_natCast _ hs, fmt_02ld_natCast _ hm, fmt_ld_natCast]
    apply snprintf_of_fits
    have := toDigits_length_le (k / 3600) 16 (by omega) (by decide)
    simp
    omega

/-- C7. `fmt_duration` is a total function that agrees with the reference
format of the specification on every value of a 64-bit `long`, for every
buffer of at least 23 characters (the caller passes 24): `?` when the value
is not positive, `M:SS` under an hour, `H:MM:SS` from an hour on.  The five
examples of the specification are 0, 45, 125, 3725 and -5. -/
theorem fmt_duration_eq_ref (secs : Int) (n : Nat)
    (hlo : -2 ^ 63 ≤ secs) (hhi : secs < 2 ^ 63) (hn : 23 ≤ n) :
    fmt_duration secs n = duration_ref secs
      ∧ fmt_duration 0 n = "?".toList
      ∧ fmt_duration 45 n = "0:45".toList
      ∧ fmt_duration 125 n = "2:05".toList
      ∧ fmt_duration 3725 n = "1:02:05".toList
      ∧ fmt_duration (-5) n = "?".toList := by
  have key : ∀ s : Int, -2 ^ 63 ≤ s → s < 2 ^ 63 → fmt_duration s n = duration_ref s := by
    intro s _ h2
    by_cases hs : s ≤ 0
    · unfold fmt_duration duration_ref
      simp only [hs, if_true]
      exact snprintf_of_fits n _ (by simp; omega)
    · obtain ⟨k, rfl⟩ : ∃ k : Nat, s = (k : Int) := ⟨s.toNat, by omega⟩
      exact fmt_duration_natCast k n (by omega) (by omega) hn
  refine ⟨key secs hlo hhi, ?_, ?_, ?_, ?_, ?_⟩
  · rw [key 0 (by norm_num) (by norm_num)]; decide
  · rw [key 45 (by norm_num) (by norm_num)]; decide
  · rw [key 125 (by norm_num) (by norm_num)]; decide
  · rw [key 3725 (by norm_num) (by norm_num)]; decide
  · rw [key (-5) (by norm_num) (by norm_num)]; decide

theorem fmt_duration_eq_ref_witness :
    fmt_duration 3725 24 = duration_ref 3725
      ∧ fmt_duration 0 24 = "?".toList
      ∧ fmt_duration 45 24 = "0:45".toList
      ∧ fmt_duration 125 24 = "2:05".toList
      ∧ fmt_duration 3725 24 = "1:02:05".toList
      ∧ fmt_duration (-5) 24 = "?".toList :=
  fmt_duration_eq_ref 3725 24 (by norm_num) (by norm_num) (by decide)

/-! ## Proofs: the playback orchestrator -/

theorem is_native_iff (c : Config) :
    is_native c = true ↔ (c.player = "mpv".toList ∨ c.player = "iina".toList) := by
  simp [is_native]

/-- C9. In stream mode, when the player is `mpv` or `iina` the calls of
`play_video` contain no URL resolution; for every other player name the first
call is the URL resolution, it is the only one, and a player call, if there
is one, comes after it. -/
theorem play_video_stream_resolution (w : World) (c : Config) (r : VideoResult)
    (hs : c.stream ≠ 0) :
    ((c.player = "mpv".toList ∨ c.player = "iina".toList) →
        (play_video w c r).1.countP Call.isResolve = 0)
      ∧ (c.player ≠ "mpv".toList → c.player ≠ "iina".toList →
        (play_video w c r).1.countP Call.isResolve = 1
          ∧ ∃ rest, (play_video w c r).1 = Call.resolve (resolve_cmd c r) :: rest
              ∧ rest.countP Call.isResolve = 0
              ∧ (play_video w c r).1.head?.map Call.isPlayer = some false) := by
  constructor
  · intro hn
    have h := (is_native_iff c).mpr hn
    simp [play_video, hs, h, Call.isResolve]
  · intro h1 h2
    have h : is_native c = false := by
      cases hb : is_native c
      · rfl
      · exact ((is_native_iff c).mp hb).elim (fun e => absurd e h1) (fun e => absurd e h2)
    unfold play_video
    simp only [hs, h, ne_eq, not_false_eq_true, if_true, Bool.false_eq_true, if_false]
    cases w.resolve (resolve_cmd c r) with
    | none => simp [Call.isResolve, Call.isPlayer]
    | some o =>
      cases o with
      | none => simp [Call.isResolve, Call.isPlayer]
      | some l => simp [Call.isResolve, Call.isPlayer]

theorem play_video_stream_resolution_witness :
    (play_video sampleWorld sampleStream sampleResult).1.countP Call.isResolve = 1 :=
  ((play_video_stream_resolution sampleWorld sampleStream sampleResult (by decide)).2
    (by decide) (by decide)).1

/-- C10. In download mode, when the download command returns a status other
than zero, `play_video` ends in `die` after the directory creation and the
download call: no player is launched and no file is removed, whatever the
keep flag is. -/
theorem play_video_download_failure (w : World) (c : Config) (r : VideoResult)
    (hs : c.stream = 0) (hf : w.download (download_cmd c r) ≠ 0) :
    (play_video w c r).2 = Outcome.die "yt-dlp download failed."
      ∧ (play_video w c r).1 = [Call.mkdir c.output_dir, Call.download (download_cmd c r)]
      ∧ (play_video w c r).1.countP Call.isPlayer = 0
      ∧ (play_video w c r).1.countP Call.isRemove = 0 := by
  simp [play_video, hs, hf, Call.isPlayer, Call.isRemove]

theorem play_video_download_failure_witness :
    (play_video sampleWorld sampleDownload sampleResult).2
      = Outcome.die "yt-dlp download failed." :=
  (play_video_download_failure sampleWorld sampleDownload sampleResult
    (by decide) (by decide)).1

/-! ## Proofs: the extractor always returns -/

theorem strstr_spec (pat : List Char) :
    ∀ (suf rev r1 p : List Char), strstr pat rev suf = some (r1, p) →
      p <:+ suf ∧ pat.isPrefixOf p = true ∧ r1.reverse ++ p = rev.reverse ++ suf := by
  intro suf
  induction suf with
  | nil =>
    intro rev r1 p h
    simp only [strstr] at h
    split at h
    · rename_i he
      simp only [Option.some.injEq, Prod.mk.injEq] at h
      obtain ⟨rfl, rfl⟩ := h
      refine ⟨List.suffix_refl _, ?_, rfl⟩
      cases pat with
      | nil => rfl
      | cons a l => simp at he
    · cases h
  | cons c s ih =>
    intro rev r1 p h
    simp only [strstr] at h
    split at h
    · rename_i hp
      simp only [Option.some.injEq, Prod.mk.injEq] at h
      obtain ⟨rfl, rfl⟩ := h
      exact ⟨List.suffix_refl _, hp, rfl⟩
    · obtain ⟨h1, h2, h3⟩ := ih _ _ _ h
      refine ⟨h1.trans (List.suffix_cons c s), h2, ?_⟩
      simpa using h3

theorem skipBlanks_spec :
    ∀ (s rev : List Char), (skipBlanks rev s).2 <:+ s
      ∧ (skipBlanks rev s).1.reverse ++ (skipBlanks rev s).2 = rev.reverse ++ s := by
  intro s
  induction s with
  | nil => intro rev; simp [skipBlanks]
  | cons c s ih =>
    intro rev
    simp only [skipBlanks]
    split
    · obtain ⟨h1, h2⟩ := ih (c :: rev)
      exact ⟨h1.trans (List.suffix_cons c s), by simpa using h2⟩
    · exact ⟨List.suffix_refl _, rfl⟩

theorem isPrefixOf_length_le {pat p : List Char} (h : pat.isPrefixOf p = true) :
    pat.length ≤ p.length := by
  rw [List.isPrefixOf_iff_prefix] at h
  exact h.length_le

theorem json_get_step_inr {pat : List Char} (hpat : pat ≠ []) (out : CStr) (outlen : Nat)
    (rev suf : List Char) (q : List Char × List Char)
    (h : json_get_step pat out outlen rev suf = .inr q) :
    q.2.length < suf.length ∧ q.2 <:+ suf ∧ q.1.reverse ++ q.2 = rev.reverse ++ suf := by
  unfold json_get_step at h
  split at h
  · cases h
  · rename_i r1 p hs
    obtain ⟨hsuf, hpre, hcat⟩ := strstr_spec pat _ _ _ _ hs
    have hlen := isPrefixOf_length_le hpre
    have hpos : 0 < pat.length := List.length_pos.mpr hpat
    have hple := hsuf.length_le
    obtain ⟨t, ht⟩ := List.isPrefixOf_iff_prefix.mp hpre
    split at h
    · obtain ⟨k1, k2⟩ := skipBlanks_spec (p.drop pat.length) (pat.reverse ++ r1)
      have hdrop : List.drop pat.length p <:+ p := List.drop_suffix _ _
      have hq : (skipBlanks (pat.reverse ++ r1) (p.drop pat.length)) = q := by
        dsimp only at h
        split at h
        · simpa using h
        · split at h
          · cases h
          · simpa using h
      subst hq
      refine ⟨?_, (k1.trans hdrop).trans hsuf, ?_⟩
      · have := k1.length_le
        simp only [List.length_drop] at this
        omega
      · rw [k2, ← hcat, ← ht]
        simp
    · split at h
      · cases h
      · simp only [Sum.inr.injEq] at h
        subst h
        refine ⟨?_, (List.suffix_cons _ _).trans hsuf, by simpa using hcat⟩
        simp only [List.length_cons] at hple
        simp only
        omega

theorem json_get_step_inl (pat : List Char) (out : CStr) (outlen : Nat)
    (rev suf : List Char) (res : Int × CStr)
    (h : json_get_step pat out outlen rev suf = .inl res) :
    res = (0, out) ∨ ∃ p, p <:+ suf ∧ res = readValue out outlen p := by
  unfold json_get_step at h
  split at h
  · simp only [Sum.inl.injEq] at h
    exact Or.inl h.symm
  · rename_i r1 p hs
    obtain ⟨hsuf, -, -⟩ := strstr_spec pat _ _ _ _ hs
    split at h
    · obtain ⟨k1, -⟩ := skipBlanks_spec (p.drop pat.length) (pat.reverse ++ r1)
      have hdrop : List.drop pat.length p <:+ p := List.drop_suffix _ _
      dsimp only at h
      split at h
      · cases h
      · rename_i c rest hq
        split at h
        · simp only [Sum.inl.injEq] at h
          right
          refine ⟨_, ?_, h.symm⟩
          obtain ⟨k3, -⟩ := skipBlanks_spec rest (c :: (skipBlanks (pat.reverse ++ r1)
            (p.drop pat.length)).1)
          have : rest <:+ (skipBlanks (pat.reverse ++ r1) (p.drop pat.length)).2 := by
            rw [hq]; exact List.suffix_cons _ _
          exact k3.trans (this.trans ((k1.trans hdrop).trans hsuf))
        · cases h
    · split at h
      · simp only [Sum.inl.injEq] at h
        exact Or.inl h.symm
      · cases h

theorem json_get_loop_terminates {pat : List Char} (hpat : pat ≠ []) (out : CStr)
    (outlen : Nat) :
    ∀ (fuel : Nat) (rev suf : List Char), suf.length < fuel →
      ∃ res, json_get_loop pat out outlen fuel rev suf = some res := by
  intro fuel
  induction fuel with
  | zero => intro rev suf h; omega
  | succ n ih =>
    intro rev suf h
    rw [json_get_loop]
    cases hst : json_get_step pat out outlen rev suf with
    | inl res => exact ⟨res, rfl⟩
    | inr q =>
      have := (json_get_step_inr hpat out outlen rev suf q hst).1
      exact ih q.1 q.2 (by omega)

theorem keyPattern_ne_nil (key : CStr) : keyPattern key ≠ [] := by
  simp [keyPattern, snprintf]

/-- The loop of `json_get` ends within the fuel `json_get` gives it: the
default of `Option.getD` is never used. -/
theorem json_get_eq_loop (json key out : CStr) (outlen : Nat) :
    json_get_loop (keyPattern key) out outlen (json.length + 1) [] json
      = some (json_get json key out outlen) := by
  obtain ⟨res, h⟩ := json_get_loop_terminates (keyPattern_ne_nil key) out outlen
    (json.length + 1) [] json (by omega)
  simp [json_get, h]

theorem json_get_loop_result (pat : List Char) (out : CStr) (outlen : Nat) :
    ∀ (fuel : Nat) (rev suf : List Char) (res : Int × CStr),
      json_get_loop pat out outlen fuel rev suf = some res →
      res = (0, out) ∨ ∃ p, p <:+ suf ∧ res = readValue out outlen p := by
  intro fuel
  induction fuel with
  | zero => intro rev suf res h; simp [json_get_loop] at h
  | succ n ih =>
    intro rev suf res h
    rw [json_get_loop] at h
    cases hst : json_get_step pat out outlen rev suf with
    | inl r =>
      rw [hst] at h
      simp only [Option.some.injEq] at h
      subst h
      exact json_get_step_inl pat out outlen rev suf r hst
    | inr q =>
      rw [hst] at h
      simp only at h
      rcases ih q.1 q.2 res h with h0 | ⟨p, hp, hr⟩
      · exact Or.inl h0
      · by_cases hpat : pat = []
        · -- with an empty pattern the step still hands on a suffix
          right
          refine ⟨p, hp.trans ?_, hr⟩
          subst hpat
          unfold json_get_step at hst
          simp only [List.reverse_nil, List.nil_append, List.length_nil, List.drop_zero] at hst
          split at hst
          · cases hst
          · rename_i r1 p2 hs
            obtain ⟨hsuf, -, -⟩ := strstr_spec [] _ _ _ _ hs
            split at hst
            · have k := (skipBlanks_spec p2 r1).1
              split at hst
              · simp only [Sum.inr.injEq] at hst
                subst hst
                exact k.trans hsuf
              · split at hst
                · cases hst
                · simp only [Sum.inr.injEq] at hst
                  subst hst
                  exact k.trans hsuf
            · split at hst
              · cases hst
              · simp only [Sum.inr.injEq] at hst
                subst hst
                exact (List.suffix_cons _ _).trans hsuf
        · exact Or.inr ⟨p, hp.trans (json_get_step_inr hpat out outlen rev suf q hst).2.1, hr⟩

/-- What `json_get` returns: 0 with `out` untouched, or the reading of a value
that starts somewhere in the line. -/
theorem json_get_result (json key out : CStr) (outlen : Nat) :
    json_get json key out outlen = (0, out)
      ∨ ∃ p, p <:+ json ∧ json_get json key out outlen = readValue out outlen p :=
  json_get_loop_result _ out outlen _ [] json _ (json_get_eq_loop json key out outlen)

/-! ## Proofs: the answer of the extractor does not depend on the old content of `out` -/

theorem readValue_out (out out2 : CStr) (outlen : Nat) (p : List Char) :
    (readValue out outlen p).1 = (readValue out2 outlen p).1
      ∧ ((readValue out outlen p).1 ≠ 0 →
          (readValue out outlen p).2 = (readValue out2 outlen p).2) := by
  cases p with
  | nil => simp [readValue]
  | cons c rest =>
    simp only [readValue]
    split
    · simp
    · split
      · simp
      · split <;> simp

theorem json_get_step_out (pat : List Char) (out out2 : CStr) (outlen : Nat)
    (rev suf : List Char) :
    (∃ q, json_get_step pat out outlen rev suf = .inr q
        ∧ json_get_step pat out2 outlen rev suf = .inr q)
      ∨ (∃ a b, json_get_step pat out outlen rev suf = .inl a
        ∧ json_get_step pat out2 outlen rev suf = .inl b
        ∧ a.1 = b.1 ∧ (a.1 ≠ 0 → a.2 = b.2)) := by
  unfold json_get_step
  cases strstr pat rev suf with
  | none => exact Or.inr ⟨_, _, rfl, rfl, rfl, by simp⟩
  | some rp =>
    obtain ⟨r1, p⟩ := rp
    dsimp only
    by_cases hk : keyContext r1 = true
    · simp only [hk, if_true]
      generalize skipBlanks (pat.reverse ++ r1) (List.drop pat.length p) = q
      obtain ⟨q1, q2⟩ := q
      cases q2 with
      | nil => exact Or.inl ⟨_, rfl, rfl⟩
      | cons c rest =>
        dsimp only
        by_cases hc : c = ':'
        · simp only [hc, if_true]
          exact Or.inr ⟨_, _, rfl, rfl, readValue_out out out2 outlen _⟩
        · simp only [hc, if_false]
          exact Or.inl ⟨_, rfl, rfl⟩
    · simp only [hk, Bool.false_eq_true, if_false]
      cases p with
      | nil => exact Or.inr ⟨_, _, rfl, rfl, rfl, by simp⟩
      | cons c rest => exact Or.inl ⟨_, rfl, rfl⟩

theorem json_get_loop_out (pat : List Char) (out out2 : CStr) (outlen : Nat) :
    ∀ (fuel : Nat) (rev suf : List Char) (a b : Int × CStr),
      json_get_loop pat out outlen fuel rev suf = some a →
      json_get_loop pat out2 outlen fuel rev suf = some b →
      a.1 = b.1 ∧ (a.1 ≠ 0 → a.2 = b.2) := by
  intro fuel
  induction fuel with
  | zero => intro rev suf a b h; simp [json_get_loop] at h
  | succ n ih =>
    intro rev suf a b ha hb
    rw [json_get_loop] at ha hb
    rcases json_get_step_out pat out out2 outlen rev suf with ⟨q, h1, h2⟩ | ⟨x, y, h1, h2, h3⟩
    · rw [h1] at ha
      rw [h2] at hb
      exact ih _ _ _ _ ha hb
    · rw [h1] at ha
      rw [h2] at hb
      simp only [Option.some.injEq] at ha hb
      subst ha hb
      exact h3

/-- The return value of `json_get`, and on success the extracted text, are the
same whatever `out` held before the call. -/
theorem json_get_out (json key out out2 : CStr) (outlen : Nat) :
    (json_get json key out outlen).1 = (json_get json key out2 outlen).1
      ∧ ((json_get json key out outlen).1 ≠ 0 →
          (json_get json key out outlen).2 = (json_get json key out2 outlen).2) :=
  json_get_loop_out _ out out2 outlen _ [] json _ _
    (json_get_eq_loop json key out outlen) (json_get_eq_loop json key out2 outlen)

/-! ## Proofs: the result collector -/

theorem collect_line_valid (fmt_f1 : Int → Nat → CStr) (line : CStr) (g : Globals)
    (h : valid_line line = true) :
    collect_line fmt_f1 line g
      = { g_results := g.g_results.set g.g_nresults (record_of fmt_f1 line),
          g_nresults := g.g_nresults + 1 } := by
  simp only [valid_line, Bool.and_eq_true, beq_iff_eq, bne_iff_ne, ne_eq] at h
  obtain ⟨⟨h0, ht⟩, hi⟩ := h
  have ht1 := json_get_out line "title".toList
    (g.g_results.getD g.g_nresults default).title [] 512
  have hi1 := json_get_out line "id".toList
    (g.g_results.getD g.g_nresults default).id [] 32
  have hv1 := json_get_out line "view_count".toList
    (json_get line "duration".toList [] 64).2 [] 64
  have hc1 := json_get_out line "channel".toList
    (g.g_results.getD g.g_nresults default).channel [] 128
  have hu1 := json_get_out line "uploader".toList
    (json_get line "channel".toList (g.g_results.getD g.g_nresults default).channel 128).2
    [] 128
  have ht2 : ¬ (json_get line "title".toList
      (g.g_results.getD g.g_nresults default).title 512).1 = 0 := by rw [ht1.1]; exact ht
  have hi2 : ¬ (json_get line "id".toList
      (g.g_results.getD g.g_nresults default).id 32).1 = 0 := by rw [hi1.1]; exact hi
  unfold collect_line record_of
  simp only [h0, ne_eq, not_true_eq_false, if_false, ht2, hi2]
  have hq1 : strncpy "?".toList 24 = "?".toList := by decide
  have hq2 : strncpy "?".toList 16 = "?".toList := by decide
  have hq3 : strncpy "Unknown".toList 128 = "Unknown".toList := by decide
  rw [hq1, hq2, hq3]
  congr 1
  congr 1
  simp only [VideoResult.mk.injEq]
  refine ⟨ht1.2 ht2, hi1.2 hi2, trivial, ?_, ?_⟩
  · rw [hv1.1]
    by_cases hz : (json_get line "view_count".toList [] 64).1 = 0
    · simp only [hz, not_true_eq_false, false_and, if_false]
    · rw [hv1.2 (by rw [hv1.1]; exact hz)]
  · rw [hc1.1]
    by_cases hz : (json_get line "channel".toList [] 128).1 = 0
    · simp only [hz, not_true_eq_false, if_false]
      rw [hu1.1]
      by_cases hy : (json_get line "uploader".toList [] 128).1 = 0
      · simp only [hy, not_true_eq_false, if_false]
      · rw [hu1.2 (by rw [hu1.1]; exact hy)]
    · rw [hc1.2 (by rw [hc1.1]; exact hz)]
      simp only [hz, not_false_eq_true, if_true]

theorem take_set_self {α : Type} (l : List α) (n : Nat) (a : α) :
    (l.set n a).take n = l.take n := by
  induction l generalizing n with
  | nil => simp
  | cons x xs ih =>
    cases n with
    | zero => simp
    | succ m => simp [List.set, ih]

theorem take_succ_set {α : Type} (l : List α) (n : Nat) (a : α) (h : n < l.length) :
    (l.set n a).take (n + 1) = l.take n ++ [a] := by
  induction l generalizing n with
  | nil => simp at h
  | cons x xs ih =>
    cases n with
    | zero => simp
    | succ m =>
      simp only [List.length_cons, Nat.add_lt_add_iff_right] at h
      simp [List.set, ih m h]

theorem collect_line_invalid (fmt_f1 : Int → Nat → CStr) (line : CStr) (g : Globals)
    (h : valid_line line = false) :
    (collect_line fmt_f1 line g).g_nresults = g.g_nresults
      ∧ (collect_line fmt_f1 line g).g_results.take g.g_nresults
          = g.g_results.take g.g_nresults
      ∧ (collect_line fmt_f1 line g).g_results.length = g.g_results.length := by
  have ht1 := json_get_out line "title".toList
    (g.g_results.getD g.g_nresults default).title [] 512
  have hi1 := json_get_out line "id".toList
    (g.g_results.getD g.g_nresults default).id [] 32
  unfold collect_line
  by_cases h0 : line.head? = some '{'
  · simp only [h0, ne_eq, not_true_eq_false, if_false]
    by_cases ht : (json_get line "title".toList
        (g.g_results.getD g.g_nresults default).title 512).1 = 0
    · simp only [ht, if_true, List.length_set, take_set_self, and_self]
    · simp only [ht, if_false]
      by_cases hi : (json_get line "id".toList
          (g.g_results.getD g.g_nresults default).id 32).1 = 0
      · simp only [hi, if_true, List.length_set, take_set_self, and_self]
      · exfalso
        rw [ht1.1] at ht
        rw [hi1.1] at hi
        simp only [valid_line, h0, beq_self_eq_true, Bool.true_and, Bool.and_eq_false_iff,
          bne_eq_false_iff_eq] at h
        exact h.elim ht hi
  · simp [h0]

/-- The number of records after the loop: the valid lines are counted up to the
capacity. -/
theorem collect_count (fmt_f1 : Int → Nat → CStr) :
    ∀ (lines : List CStr) (g : Globals), g.g_nresults ≤ MAX_RESULTS →
      (collect fmt_f1 lines g).g_nresults
        = min MAX_RESULTS (g.g_nresults + (lines.filter valid_line).length) := by
  intro lines
  induction lines with
  | nil => intro g hg; simp [collect]; omega
  | cons line more ih =>
    intro g hg
    rw [collect]
    by_cases hlt : g.g_nresults < MAX_RESULTS
    · simp only [hlt, if_true]
      cases hv : valid_line line with
      | true =>
        rw [collect_line_valid fmt_f1 line g hv, ih _ (by simpa using hlt)]
        simp only [List.filter_cons, hv, if_true, List.length_cons]
        congr 1
        omega
      | false =>
        obtain ⟨h1, -, -⟩ := collect_line_invalid fmt_f1 line g hv
        rw [ih _ (by rw [h1]; exact hg), h1]
        simp [List.filter_cons, hv]
    · simp only [hlt, if_false]
      omega

/-- The records after the loop: the first `g_nresults` slots hold the records
there were, followed by the records of the valid lines in input order, up to
the capacity. -/
theorem collect_results (fmt_f1 : Int → Nat → CStr) :
    ∀ (lines : List CStr) (g : Globals), g.g_nresults ≤ MAX_RESULTS →
      g.g_results.length = MAX_RESULTS →
      (collect fmt_f1 lines g).g_results.take (collect fmt_f1 lines g).g_nresults
        = (g.g_results.take g.g_nresults
            ++ (lines.filter valid_line).map (record_of fmt_f1)).take MAX_RESULTS := by
  intro lines
  induction lines with
  | nil =>
    intro g hg hl
    simp only [collect, List.filter_nil, List.map_nil, List.append_nil, List.take_take]
    congr 1
    omega
  | cons line more ih =>
    intro g hg hl
    rw [collect]
    by_cases hlt : g.g_nresults < MAX_RESULTS
    · simp only [hlt, if_true]
      cases hv : valid_line line with
      | true =>
        rw [collect_line_valid fmt_f1 line g hv]
        rw [ih _ (by simpa using hlt) (by simpa using hl)]
        simp only [List.filter_cons, hv, if_true, List.map_cons]
        rw [take_succ_set _ _ _ (by omega)]
        simp
      | false =>
        obtain ⟨h1, h2, h3⟩ := collect_line_invalid fmt_f1 line g hv
        rw [ih _ (by rw [h1]; exact hg) (by rw [h3]; exact hl), h1, h2]
        simp [List.filter_cons, hv]
    · simp only [hlt, if_false]
      have : g.g_nresults = MAX_RESULTS := by omega
      rw [this, List.take_append_of_le_length (by simp [hl]), List.take_take]
      simp

theorem search_youtube_eq (fmt_f1 : Int → Nat → CStr) (popen : CStr → Option (List CStr))
    (g0 : List VideoResult) (c : Config) (lines : List CStr)
    (hp : popen (search_cmd c) = some lines) :
    search_youtube fmt_f1 popen g0 c
      = .ret (collect fmt_f1 lines { g_results := g0, g_nresults := 0 }) := by
  simp [search_youtube, hp]

/-- C2. When the backend starts, `search_youtube` returns; the records it has
stored are, in input order, the records of the lines that begin with the
object-start marker and yield both `title` and `id`, up to the capacity of 25,
and the count returned is their number.  Lines that do not begin with the
marker or lack one of the two fields add nothing.  With two valid lines and
one line without `id`, in any order, the count is 2. -/
theorem search_youtube_records (fmt_f1 : Int → Nat → CStr)
    (popen : CStr → Option (List CStr)) (g0 : List VideoResult) (c : Config)
    (lines : List CStr) (hp : popen (search_cmd c) = some lines)
    (hg : g0.length = MAX_RESULTS) :
    ∃ g, search_youtube fmt_f1 popen g0 c = .ret g
      ∧ g.g_nresults = min MAX_RESULTS (lines.filter valid_line).length
      ∧ g.g_results.take g.g_nresults
          = ((lines.filter valid_line).map (record_of fmt_f1)).take MAX_RESULTS
      ∧ (∀ a b x : CStr, lines.Perm [a, b, x] → valid_line a = true → valid_line b = true →
          (json_get x "id".toList [] 32).1 = 0 → g.g_nresults = 2) := by
  refine ⟨_, search_youtube_eq fmt_f1 popen g0 c lines hp, ?_, ?_, ?_⟩
  · rw [collect_count fmt_f1 lines _ (Nat.zero_le _)]
    simp
  · rw [collect_results fmt_f1 lines _ (Nat.zero_le _) hg]
    simp
  · intro a b x hperm ha hb hx
    rw [collect_count fmt_f1 lines _ (Nat.zero_le _)]
    have hxv : valid_line x = false := by
      simp only [valid_line, hx, bne_self_eq_false, Bool.and_false]
    have hlen : (lines.filter valid_line).length = 2 := by
      rw [(hperm.filter valid_line).length_eq]
      simp [List.filter_cons, ha, hb, hxv]
    simp [hlen, MAX_RESULTS]

theorem search_youtube_records_witness :
    ∃ g, search_youtube sampleFmt samplePopen sampleSlots sampleStream = .ret g
      ∧ g.g_nresults = min MAX_RESULTS (sampleLines.filter valid_line).length
      ∧ g.g_results.take g.g_nresults
          = ((sampleLines.filter valid_line).map (record_of sampleFmt)).take MAX_RESULTS
      ∧ (∀ a b x : CStr, sampleLines.Perm [a, b, x] → valid_line a = true →
          valid_line b = true → (json_get x "id".toList [] 32).1 = 0 → g.g_nresults = 2) :=
  search_youtube_records sampleFmt samplePopen sampleSlots sampleStream sampleLines rfl
    (by decide)

/-- C5 (as stated, refuted). Asked for one result, a backend that prints two
valid lines makes `search_youtube` return 2, more than the requested count. -/
theorem search_youtube_count_exceeds_request :
    search_youtube_ret sampleFmt twoLinesPopen sampleSlots
        { sampleStream with num_results := 1 } = some 2
      ∧ ¬ ((2 : Int) ≤ min ({ sampleStream with num_results := 1 }).num_results
            (MAX_RESULTS : Int)) := by
  decide

/-- C5 (amended). When the backend starts, the number of records `search_youtube`
returns is at most the capacity `MAX_RESULTS` = 25 and at most the number of
valid lines of the output; it is at most the requested count as well whenever
the backend prints no more valid lines than were asked for. -/
theorem search_youtube_count (fmt_f1 : Int → Nat → CStr)
    (popen : CStr → Option (List CStr)) (g0 : List VideoResult) (c : Config)
    (lines : List CStr) (hp : popen (search_cmd c) = some lines) :
    ∃ n, search_youtube_ret fmt_f1 popen g0 c = some n
      ∧ n ≤ MAX_RESULTS
      ∧ n ≤ (lines.filter valid_line).length
      ∧ (((lines.filter valid_line).length : Int) ≤ c.num_results →
          (n : Int) ≤ min c.num_results (MAX_RESULTS : Int)) := by
  refine ⟨(collect fmt_f1 lines { g_results := g0, g_nresults := 0 }).g_nresults,
    ?_, ?_, ?_, ?_⟩
  · simp only [search_youtube_ret, search_youtube_eq fmt_f1 popen g0 c lines hp]
  · rw [collect_count fmt_f1 lines _ (Nat.zero_le _)]
    exact Nat.min_le_left _ _
  · rw [collect_count fmt_f1 lines _ (Nat.zero_le _)]
    simp
  · intro h
    rw [collect_count fmt_f1 lines _ (Nat.zero_le _)]
    simp only [Nat.zero_add]
    omega

theorem search_youtube_count_witness :
    ∃ n, search_youtube_ret sampleFmt samplePopen sampleSlots sampleStream = some n
      ∧ n ≤ MAX_RESULTS
      ∧ n ≤ (sampleLines.filter valid_line).length
      ∧ (((sampleLines.filter valid_line).length : Int) ≤ sampleStream.num_results →
          (n : Int) ≤ min sampleStream.num_results (MAX_RESULTS : Int)) :=
  search_youtube_count sampleFmt samplePopen sampleSlots sampleStream sampleLines rfl

/-! ## Proofs: stored fields -/

theorem copyString_eq_nil (lim : Nat) (hl : 0 < lim) (p : List Char)
    (h : copyString lim p 0 = []) : p = [] ∨ ∃ r, p = '"' :: r := by
  cases p with
  | nil => exact Or.inl rfl
  | cons c rest =>
    right
    by_cases hc : c = '"'
    · exact ⟨rest, by rw [hc]⟩
    · exfalso
      cases rest with
      | nil =>
        rw [copyString] at h
        simp only [ne_eq, hc, not_false_eq_true, hl, and_self, if_true] at h
        split at h <;> simp [copyString] at h
      | cons e rest2 =>
        rw [copyString] at h
        simp only [ne_eq, hc, not_false_eq_true, hl, and_self, if_true] at h
        split at h <;> simp at h

theorem copyNumber_ne_nil (lim : Nat) (hl : 0 < lim) (c : Char) (rest : List Char)
    (hc : (isdigit c || c == '-') = true) : copyNumber lim (c :: rest) 0 ≠ [] := by
  have hc2 : c = '-' ∨ isdigit c = true := by
    simp only [Bool.or_eq_true, beq_iff_eq] at hc
    exact hc.symm
  simp [copyNumber, hc2, hl]

/-- A successful reading gives the empty string only for an opening quote
that is followed at once by a quote or by the end of the line. -/
theorem readValue_eq_nil (out : CStr) (outlen : Nat) (hn : 2 ≤ outlen) (p : List Char)
    (h1 : (readValue out outlen p).1 ≠ 0) (h2 : (readValue out outlen p).2 = []) :
    p = ['"'] ∨ ∃ r, p = '"' :: '"' :: r := by
  cases p with
  | nil => simp [readValue] at h1
  | cons c rest =>
    simp only [readValue] at h1 h2
    split at h1
    · rename_i hc
      simp only [hc, if_true] at h2
      subst hc
      rcases copyString_eq_nil (outlen - 1) (by omega) rest h2 with h | ⟨r, h⟩
      · exact Or.inl (by rw [h])
      · exact Or.inr ⟨r, by rw [h]⟩
    · rename_i hc
      simp only [hc, if_false] at h2
      split at h1
      · rename_i hd
        simp only [hd, if_true] at h2
        exact absurd h2 (copyNumber_ne_nil (outlen - 1) (by omega) c rest hd)
      · split at h1 <;> simp at h1

theorem json_get_ne_nil (line key out : CStr) (outlen : Nat) (hn : 2 ≤ outlen)
    (h1 : (json_get line key out outlen).1 ≠ 0)
    (hq : ¬ (['"', '"'] <:+: line)) (he : ¬ (['"'] <:+ line)) :
    (json_get line key out outlen).2 ≠ [] := by
  intro h2
  rcases json_get_result line key out outlen with h | ⟨p, hp, h⟩
  · rw [h] at h1
    exact h1 rfl
  · rw [h] at h1 h2
    rcases readValue_eq_nil out outlen hn p h1 h2 with rfl | ⟨r, rfl⟩
    · exact he hp
    · apply hq
      obtain ⟨t, ht⟩ := hp
      exact ⟨t, r, by simp [← ht]⟩

theorem shTokensAux_quoted_cons (c : Char) (hc : c ≠ SQ) (cur s : List Char) :
    shTokensAux .quoted cur (c :: s) = shTokensAux .quoted (cur ++ [c]) s := by
  rw [shTokensAux]
  simp only [hc, if_false]

theorem shTokensAux_quoted_close (cur s : List Char) :
    shTokensAux .quoted cur (SQ :: s) = shTokensAux .bare cur s := by
  rw [shTokensAux]
  simp only [if_true]

theorem shTokensAux_bare_escape (e : Char) (cur s : List Char) :
    shTokensAux .bare cur ('\\' :: e :: s) = shTokensAux .bare (cur ++ [e]) s := by
  have e1 : isShBlank '\\' = false := by decide
  have e2 : isShOp '\\' = false := by decide
  have e3 : ('\\' : Char) ≠ SQ := by decide
  simp only [shTokensAux, e1, e2, e3, if_false, Bool.false_eq_true, if_true]

theorem shTokensAux_bare_open (cur s : List Char) :
    shTokensAux .bare cur (SQ :: s) = shTokensAux .quoted cur s := by
  have e1 : isShBlank SQ = false := by decide
  have e2 : isShOp SQ = false := by decide
  cases s <;> simp only [shTokensAux, e1, e2, if_false, Bool.false_eq_true, if_true]

theorem shTokensAux_gap_open (cur s : List Char) :
    shTokensAux .gap cur (SQ :: s) = shTokensAux .quoted [] s := by
  have e1 : isShBlank SQ = false := by decide
  have e2 : isShOp SQ = false := by decide
  cases s <;> simp only [shTokensAux, e1, e2, if_false, Bool.false_eq_true, if_true]

theorem shTokensAux_quoted_plain (w : List Char) (hw : ∀ c ∈ w, c ≠ SQ) :
    ∀ (cur rest : List Char),
      shTokensAux .quoted cur (w ++ rest) = shTokensAux .quoted (cur ++ w) rest := by
  induction w with
  | nil => intro cur rest; simp
  | cons c s ih =>
    intro cur rest
    have hc : c ≠ SQ := hw c (List.mem_cons_self _ _)
    rw [List.cons_append, shTokensAux_quoted_cons c hc,
      ih (fun d hd => hw d (List.mem_cons_of_mem _ hd))]
    simp

/-- In quoted mode the text written by the escaping loop, once the closing
quote is read, has added to the word the part of the query the loop got
through. -/
theorem shTokensAux_escapeLoop :
    ∀ (q : List Char) (j : Nat) (cur rest : List Char),
      shTokensAux .quoted cur (escapeLoop q j ++ SQ :: rest)
        = shTokensAux .bare (cur ++ escapeKept q j) rest := by
  intro q
  induction q with
  | nil =>
    intro j cur rest
    simp only [escapeLoop, escapeKept, List.nil_append, List.append_nil]
    exact shTokensAux_quoted_close cur rest
  | cons c s ih =>
    intro j cur rest
    by_cases hj : j < 4096 - 5
    · by_cases hc : c = SQ
      · subst hc
        simp only [escapeLoop, escapeKept, hj, if_true, List.cons_append]
        rw [shTokensAux_quoted_close, shTokensAux_bare_escape, shTokensAux_bare_open, ih]
        simp
      · simp only [escapeLoop, escapeKept, hj, hc, if_true, if_false, List.cons_append]
        rw [shTokensAux_quoted_cons c hc, ih]
        simp
    · simp only [escapeLoop, escapeKept, hj, if_false, List.nil_append, List.append_nil]
      exact shTokensAux_quoted_close cur rest

theorem escapeLoop_length : ∀ (q : List Char) (j : Nat), j ≤ 4094 →
    j + (escapeLoop q j).length ≤ 4094 := by
  intro q
  induction q with
  | nil => intro j hj; simp [escapeLoop]; exact hj
  | cons c s ih =>
    intro j hj
    by_cases hlt : j < 4096 - 5
    · by_cases hc : c = SQ
      · simp only [escapeLoop, hlt, hc, if_true, List.length_cons]
        have := ih (j + 4) (by omega)
        omega
      · simp only [escapeLoop, hlt, hc, if_true, if_false, List.length_cons]
        have := ih (j + 1) (by omega)
        omega
    · simp [escapeLoop, hlt]; exact hj

theorem escapeKept_all : ∀ (q : List Char) (j : Nat),
    j + q.length + 3 * q.count SQ ≤ 4091 → escapeKept q j = q := by
  intro q
  induction q with
  | nil => intro j _; rfl
  | cons c s ih =>
    intro j h
    simp only [List.length_cons] at h
    have hlt : j < 4096 - 5 := by omega
    by_cases hc : c = SQ
    · subst hc
      simp only [List.count_cons_self] at h
      simp only [escapeKept, hlt, if_true]
      rw [ih (j + 4) (by omega)]
    · have hcnt : (c :: s).count SQ = s.count SQ := List.count_cons_of_ne (Ne.symm hc) s
      rw [hcnt] at h
      simp only [escapeKept, hlt, hc, if_true, if_false]
      rw [ih (j + 1) (by omega)]

theorem digitChar_ne_SQ (k : Nat) (h : k < 10) : Nat.digitChar k ≠ SQ := by
  revert k
  decide

theorem toDigitsCore_ne_SQ : ∀ (fuel n : Nat) (acc : List Char), (∀ c ∈ acc, c ≠ SQ) →
    ∀ c ∈ Nat.toDigitsCore 10 fuel n acc, c ≠ SQ := by
  intro fuel
  induction fuel with
  | zero => intro n acc h; simpa [Nat.toDigitsCore] using h
  | succ f ih =>
    intro n acc h
    simp only [Nat.toDigitsCore]
    have h2 : ∀ c ∈ Nat.digitChar (n % 10) :: acc, c ≠ SQ := by
      intro c hc
      rcases List.mem_cons.mp hc with rfl | hc
      · exact digitChar_ne_SQ _ (Nat.mod_lt _ (by decide))
      · exact h c hc
    split
    · exact h2
    · exact ih _ _ h2

theorem fmt_ld_ne_SQ (v : Int) : ∀ c ∈ fmt_ld v, c ≠ SQ := by
  intro c hc
  unfold fmt_ld at hc
  split at hc
  · rcases List.mem_cons.mp hc with rfl | hc
    · decide
    · exact toDigitsCore_ne_SQ _ _ [] (by simp) c hc
  · exact toDigitsCore_ne_SQ _ _ [] (by simp) c hc

theorem fmt_ld_length_int (v : Int) (hlo : -2 ^ 31 ≤ v) (hhi : v < 2 ^ 31) :
    (fmt_ld v).length ≤ 11 := by
  unfold fmt_ld
  split
  · have := toDigits_length_le v.natAbs 10 (by omega) (by decide)
    simp only [List.length_cons]
    omega
  · have := toDigits_length_le v.toNat 10 (by omega) (by decide)
    omega

/-- The tokens of the search command, for every query: the backend gets, as one
word after `ytsearch<N>:`, the part of the query the escaping loop got
through. -/
theorem search_cmd_tokens (c : Config) (hlo : -2 ^ 31 ≤ c.num_results)
    (hhi : c.num_results < 2 ^ 31) :
    shTokens (search_cmd c) = some (search_tokens c (escapeKept c.query 0)) := by
  have hlen := escapeLoop_length c.query 0 (by omega)
  have hd := fmt_ld_length_int c.num_results hlo hhi
  unfold search_cmd
  rw [snprintf_of_fits]
  · have hpre : ∀ rest : List Char,
        shTokens ("yt-dlp --no-warnings --flat-playlist --dump-json".toList ++ " ".toList
            ++ [SQ] ++ rest)
          = (shTokensAux .quoted [] rest).map
              (fun t => ShToken.word "yt-dlp".toList :: .word "--no-warnings".toList
                :: .word "--flat-playlist".toList :: .word "--dump-json".toList :: t) := by
      intro rest
      simp [shTokens, shTokensAux, isShBlank, isShOp, SQ, Option.map_map, Function.comp_def]
      rw [show Char.ofNat 39 = SQ from rfl, shTokensAux_gap_open]
    have hpost : ∀ cur : List Char,
        shTokensAux .bare cur " 2>/dev/null".toList
          = some [ShToken.word cur, .word "2".toList, .op '>', .word "/dev/null".toList] := by
      intro cur
      simp [shTokensAux, isShBlank, isShOp, SQ]
    have hshape : "yt-dlp --no-warnings --flat-playlist --dump-json".toList ++ " ".toList
          ++ [SQ] ++ "ytsearch".toList ++ fmt_ld c.num_results ++ ":".toList
          ++ escapeLoop c.query 0 ++ [SQ] ++ " 2>/dev/null".toList
        = "yt-dlp --no-warnings --flat-playlist --dump-json".toList ++ " ".toList ++ [SQ]
          ++ (("ytsearch".toList ++ fmt_ld c.num_results ++ ":".toList)
            ++ (escapeLoop c.query 0 ++ SQ :: " 2>/dev/null".toList)) := by
      simp
    rw [hshape, hpre, shTokensAux_quoted_plain, shTokensAux_escapeLoop, hpost]
    · simp [search_tokens]
    · intro ch hch
      simp only [List.mem_append] at hch
      rcases hch with (hch | hch) | hch
      · revert ch; decide
      · exact fmt_ld_ne_SQ _ ch hch
      · revert ch; decide
  · simp only [List.length_append, MAX_CMD]
    have e1 : "yt-dlp --no-warnings --flat-playlist --dump-json".toList.length = 48 := by decide
    have e2 : " 2>/dev/null".toList.length = 12 := by decide
    have e3 : "ytsearch".toList.length = 8 := by decide
    simp only [e1, e2, e3]
    simp
    omega

/-- C3 (as stated, refuted). For the query made of 1024 single quotes, which
fits `Config.query`, the shell hands the backend `ytsearch3:` followed by 1023
single quotes only: the escaping loop stops when `safe_q` is nearly full. -/
theorem search_cmd_drops_quote :
    shTokens (search_cmd quotesConfig)
        = some (search_tokens quotesConfig (List.replicate 1023 SQ))
      ∧ quotesConfig.query.length = 1024
      ∧ shTokens (search_cmd quotesConfig)
        ≠ some (search_tokens quotesConfig quotesConfig.query) := by
  have hk : escapeKept quotesConfig.query 0 = List.replicate 1023 SQ := by
    set_option maxRecDepth 100000 in decide
  have h := search_cmd_tokens quotesConfig (by decide) (by decide)
  rw [hk] at h
  have hq : quotesConfig.query = List.replicate 1024 SQ := rfl
  refine ⟨h, by rw [hq, List.length_replicate], ?_⟩
  rw [h]
  intro hcon
  have h2 := Option.some.inj hcon
  unfold search_tokens at h2
  simp only [List.cons.injEq, ShToken.word.injEq, List.append_cancel_left_eq, true_and,
    and_true] at h2
  have h3 := congrArg List.length h2
  rw [hq, List.length_replicate, List.length_replicate] at h3
  exact absurd h3 (by decide)

/-- C3 (amended). For every query whose escaped form fits the loop bound (its
length plus three times its number of single quotes is at most 4091; every
query of `Config.query` that has at most 681 single quotes is one) and every
`int` count, the search command splits by the POSIX quoting rules into the
program, its options, the single word `ytsearch<N>:` followed by the exact
query text, and the redirection. -/
theorem search_cmd_round_trip (c : Config) (hlo : -2 ^ 31 ≤ c.num_results)
    (hhi : c.num_results < 2 ^ 31)
    (hq : c.query.length + 3 * c.query.count SQ ≤ 4091) :
    shTokens (search_cmd c) = some (search_tokens c c.query) := by
  rw [search_cmd_tokens c hlo hhi, escapeKept_all c.query 0 (by omega)]

theorem search_cmd_round_trip_witness :
    shTokens (search_cmd quoteConfig) = some (search_tokens quoteConfig quoteConfig.query) :=
  search_cmd_round_trip quoteConfig (by decide) (by decide) (by decide)

/-! ## Proofs: the commands of `play_video` -/

/-- C4 (defect of the code). `play_video` puts the quality selector and the
output directory between single quotes without escaping the single quotes
they hold.  With the selector `x';id;'` the player command is split by the
shell into three commands, the second being `id`; with the directory
`d' 'e` the download command and the listing command get two words where one
path was meant. -/
theorem play_video_quote_breaks_command :
    (play_video sampleWorld injectConfig sampleResult).1
        = [Call.player (native_cmd injectConfig sampleResult)]
      ∧ shTokens (native_cmd injectConfig sampleResult)
        = some [ .word "mpv".toList, .word "--ytdl-format=x".toList, .op ';',
            .word "id".toList, .op ';', .word [],
            .word "https://www.youtube.com/watch?v=abc".toList ]
      ∧ shTokens (download_cmd injectDirConfig sampleResult)
        = some [ .word "yt-dlp".toList, .word "--no-warnings".toList, .word "-f".toList,
            .word "best".toList, .word "-o".toList, .word "d".toList,
            .word "e/%(title)s.%(ext)s".toList,
            .word "https://www.youtube.com/watch?v=abc".toList ]
      ∧ shTokens (find_cmd injectDirConfig)
        = some [ .word "ls".toList, .word "-t".toList, .word "d".toList, .word "e".toList,
            .word "2".toList, .op '>', .word "/dev/null".toList, .op '|',
            .word "head".toList, .word "-1".toList ] := by
  decide

/-- The branches of `fmt_views` that print no quotient: `?` for a count that is
not positive and the decimal number under 1000, for every buffer of at least
four characters. -/
theorem fmt_views_small (fmt_f1 : Int → Nat → CStr) (v : Int) (n : Nat) (hn : 4 ≤ n) :
    (v ≤ 0 → fmt_views fmt_f1 v n = "?".toList)
      ∧ (0 < v → v < 1000 → fmt_views fmt_f1 v n = Nat.toDigits 10 v.toNat) := by
  constructor
  · intro h
    simp only [fmt_views, h, if_true]
    exact snprintf_of_fits n _ (by simp; omega)
  · intro h1 h2
    have e1 : ¬ v ≤ 0 := by omega
    have e2 : ¬ v ≥ 1000000 := by omega
    have e3 : ¬ v ≥ 1000 := by omega
    have e4 : ¬ v < 0 := by omega
    simp only [fmt_views, e1, e2, e3, if_false, fmt_ld, e4]
    apply snprintf_of_fits
    have := toDigits_length_le v.toNat 3 (by omega) (by decide)
    omega

/-! ## Proofs: the extractor on well-formed flat objects -/

theorem json_get_loop_fuel {pat : List Char} (hpat : pat ≠ []) (out : CStr) (outlen : Nat) :
    ∀ (n m : Nat) (rev suf : List Char), suf.length < n → suf.length < m →
      json_get_loop pat out outlen n rev suf = json_get_loop pat out outlen m rev suf := by
  intro n
  induction n with
  | zero => intro m rev suf h; omega
  | succ n ih =>
    intro m rev suf hn hm
    cases m with
    | zero => omega
    | succ m =>
      rw [json_get_loop, json_get_loop]
      cases hst : json_get_step pat out outlen rev suf with
      | inl res => rfl
      | inr q =>
        have := (json_get_step_inr hpat out outlen rev suf q hst).1
        exact ih m q.1 q.2 (by omega) (by omega)

theorem json_get_from_step {pat : List Char} (hpat : pat ≠ []) (out : CStr) (outlen : Nat)
    (rev suf : List Char) :
    json_get_from pat out outlen rev suf
      = match json_get_step pat out outlen rev suf with
        | .inl res => res
        | .inr q => json_get_from pat out outlen q.1 q.2 := by
  unfold json_get_from
  rw [json_get_loop]
  cases hst : json_get_step pat out outlen rev suf with
  | inl res => rfl
  | inr q =>
    have := (json_get_step_inr hpat out outlen rev suf q hst).1
    simp only
    rw [json_get_loop_fuel hpat out outlen suf.length (q.2.length + 1) q.1 q.2 this
      (by omega)]

theorem json_get_eq_from (json key out : CStr) (outlen : Nat) :
    json_get json key out outlen = json_get_from (keyPattern key) out outlen [] json := rfl

/-- The loop moves on by one character wherever the pattern does not start or
the text before is not that of a key. -/
theorem json_get_from_slide {pat : List Char} (hpat : pat ≠ []) (out : CStr) (outlen : Nat)
    (rev : List Char) (c : Char) (s : List Char)
    (h : ¬ (pat.isPrefixOf (c :: s) = true ∧ keyContext rev = true)) :
    json_get_from pat out outlen rev (c :: s) = json_get_from pat out outlen (c :: rev) s := by
  by_cases hp : pat.isPrefixOf (c :: s) = true
  · have hk : keyContext rev = false := by
      cases hkc : keyContext rev with
      | false => rfl
      | true => exact absurd ⟨hp, hkc⟩ h
    rw [json_get_from_step hpat out outlen rev (c :: s)]
    simp [json_get_step, strstr, hp, hk]
  · have hs : strstr pat rev (c :: s) = strstr pat (c :: rev) s := by
      simp [strstr, hp]
    rw [json_get_from_step hpat out outlen rev (c :: s),
      json_get_from_step hpat out outlen (c :: rev) s]
    unfold json_get_step
    rw [hs]

theorem isPrefixOf_cons_ne (a c : Char) (l s : List Char) (h : c ≠ a) :
    (a :: l).isPrefixOf (c :: s) = false := by
  simp [List.isPrefixOf, Ne.symm h]

/-- Text without a double quote is passed over. -/
theorem json_get_from_noquote (key : List Char) (out : CStr) (outlen : Nat) :
    ∀ (A rev B : List Char), (∀ c ∈ A, c ≠ '"') →
      json_get_from ('"' :: (key ++ ['"'])) out outlen rev (A ++ B)
        = json_get_from ('"' :: (key ++ ['"'])) out outlen (A.reverse ++ rev) B := by
  intro A
  induction A with
  | nil => intro rev B _; rfl
  | cons c s ih =>
    intro rev B h
    have hc : c ≠ '"' := h c (List.mem_cons_self _ _)
    show json_get_from _ out outlen rev (c :: (s ++ B)) = _
    rw [json_get_from_slide (by simp) out outlen rev c (s ++ B)
      (by rw [isPrefixOf_cons_ne _ _ _ _ hc]; simp),
      ih (c :: rev) B (fun d hd => h d (List.mem_cons_of_mem _ hd))]
    simp

theorem keyContext_cons_other (c : Char) (r : List Char) (h1 : isBlank c = false)
    (h2 : c ≠ '{') (h3 : c ≠ ',') : keyContext (c :: r) = false := by
  cases r with
  | nil => simp [keyContext, h2, h3]
  | cons d r => simp [keyContext, h1, h2, h3]

theorem keyContext_blanks (bl : List Char) (hb : ∀ c ∈ bl, isBlank c = true) (d : Char)
    (more : List Char) (hd : isBlank d = false) :
    keyContext (bl ++ d :: more) = (d == '{' || d == ',') := by
  induction bl with
  | nil =>
    cases more with
    | nil => simp [keyContext]
    | cons e r => simp [keyContext, hd]
  | cons b bl ih =>
    have hbb : isBlank b = true := hb b (List.mem_cons_self _ _)
    have ih2 := ih (fun c hc => hb c (List.mem_cons_of_mem _ hc))
    cases hbl : bl ++ d :: more with
    | nil => simp at hbl
    | cons x xs =>
      rw [List.cons_append, hbl, keyContext]
      simp only [hbb, if_true]
      rw [← hbl, ih2]

theorem JChar.wf_plain {c : Char} (h : JChar.wf (.plain c) = true) : c ≠ '"' ∧ c ≠ '\\' := by
  simp only [JChar.wf, Bool.and_eq_true, bne_iff_ne, ne_eq] at h
  exact ⟨h.1.1, h.1.2⟩

/-- The text of a string between its quotes is passed over: a double quote in
it follows a backslash, which is not the text before a key. -/
theorem json_get_from_body (key : List Char) (out : CStr) (outlen : Nat) :
    ∀ (b : List JChar) (rev B : List Char), b.all JChar.wf = true →
      json_get_from ('"' :: (key ++ ['"'])) out outlen rev (renderBody b ++ B)
        = json_get_from ('"' :: (key ++ ['"'])) out outlen ((renderBody b).reverse ++ rev) B := by
  intro b
  induction b with
  | nil => intro rev B _; rfl
  | cons x xs ih =>
    intro rev B h
    simp only [List.all_cons, Bool.and_eq_true] at h
    cases x with
    | plain c =>
      have hc := (JChar.wf_plain h.1).1
      show json_get_from _ out outlen rev (c :: (renderBody xs ++ B)) = _
      rw [json_get_from_slide (by simp) out outlen rev c _
        (by rw [isPrefixOf_cons_ne _ _ _ _ hc]; simp), ih (c :: rev) B h.2]
      simp [renderBody, JChar.render]
    | esc e =>
      show json_get_from _ out outlen rev ('\\' :: e :: (renderBody xs ++ B)) = _
      rw [json_get_from_slide (by simp) out outlen rev '\\' _
        (by rw [isPrefixOf_cons_ne _ _ _ _ (by decide)]; simp),
        json_get_from_slide (by simp) out outlen ('\\' :: rev) e _
        (by rw [keyContext_cons_other '\\' rev (by decide) (by decide) (by decide)]; simp),
        ih (e :: '\\' :: rev) B h.2]
      simp [renderBody, JChar.render]

/-- Where a key opens, the pattern starts only if the key is the one looked
for. -/
theorem key_prefix_body :
    ∀ (b : List JChar) (key rest : List Char), b.all JChar.wf = true →
      (∀ k ∈ key, k ≠ '"' ∧ k ≠ '\\') →
      (key ++ ['"']).isPrefixOf (renderBody b ++ '"' :: rest) = true → renderBody b = key := by
  intro b
  induction b with
  | nil =>
    intro key rest _ hk h
    cases key with
    | nil => rfl
    | cons k ks =>
      have := (hk k (List.mem_cons_self _ _)).1
      simp [renderBody, List.isPrefixOf, this] at h
  | cons x xs ih =>
    intro key rest hb hk h
    simp only [List.all_cons, Bool.and_eq_true] at hb
    cases x with
    | plain c =>
      have hc := (JChar.wf_plain hb.1).1
      cases key with
      | nil => simp [renderBody, JChar.render, List.isPrefixOf, Ne.symm hc] at h
      | cons k ks =>
        simp only [renderBody, JChar.render, List.cons_append, List.nil_append,
          List.isPrefixOf, Bool.and_eq_true, beq_iff_eq] at h
        have := ih ks rest hb.2 (fun d hd => hk d (List.mem_cons_of_mem _ hd)) h.2
        simp [renderBody, JChar.render, this, h.1]
    | esc e =>
      cases key with
      | nil => simp [renderBody, JChar.render, List.isPrefixOf] at h
      | cons k ks =>
        have := (hk k (List.mem_cons_self _ _)).2
        simp [renderBody, JChar.render, List.isPrefixOf, this] at h

/-- After a closing quote come blanks and a colon or a comma: the pattern does
not start there. -/
theorem closing_quote_mismatch (key : List Char)
    (hk : ∀ k ∈ key, isBlank k = false ∧ k ≠ ':' ∧ k ≠ ',')
    (ws : List Char) (hws : ∀ c ∈ ws, isBlank c = true) (d : Char) (hd : d = ':' ∨ d = ',')
    (rest : List Char) :
    ('"' :: (key ++ ['"'])).isPrefixOf ('"' :: (ws ++ d :: rest)) = false := by
  have hq : isBlank '"' = false := by decide
  cases key with
  | nil =>
    cases ws with
    | nil => rcases hd with rfl | rfl <;> simp [List.isPrefixOf]
    | cons w ws =>
      have hw := hws w (List.mem_cons_self _ _)
      have : ('"' : Char) ≠ w := by
        intro e
        rw [← e, hq] at hw
        cases hw
      simp [List.isPrefixOf, this]
  | cons k ks =>
    obtain ⟨h1, h2, h3⟩ := hk k (List.mem_cons_self _ _)
    cases ws with
    | nil => rcases hd with rfl | rfl <;> simp [List.isPrefixOf, h2, h3]
    | cons w ws =>
      have hw := hws w (List.mem_cons_self _ _)
      have : k ≠ w := by
        intro e
        rw [e, hw] at h1
        cases h1
      simp [List.isPrefixOf, this]

theorem skipBlanks_blanks :
    ∀ (ws rev : List Char) (d : Char) (s : List Char), (∀ c ∈ ws, isBlank c = true) →
      isBlank d = false → skipBlanks rev (ws ++ d :: s) = (ws.reverse ++ rev, d :: s) := by
  intro ws
  induction ws with
  | nil => intro rev d s _ hd; simp [skipBlanks, hd]
  | cons w ws ih =>
    intro rev d s hws hd
    have hw := hws w (List.mem_cons_self _ _)
    show skipBlanks rev (w :: (ws ++ d :: s)) = _
    rw [skipBlanks]
    simp only [hw, if_true]
    rw [ih _ _ _ (fun c hc => hws c (List.mem_cons_of_mem _ hc)) hd]
    simp

theorem blank_ne_quote (ws : List Char) (hws : ∀ c ∈ ws, isBlank c = true) :
    ∀ c ∈ ws, c ≠ '"' := by
  intro c hc e
  have := hws c hc
  rw [e] at this
  exact absurd this (by decide)

theorem copyString_quote (lim : Nat) (Y : List Char) (i : Nat) :
    copyString lim ('"' :: Y) i = [] := by
  cases Y <;> simp [copyString]

theorem copyString_plain (lim : Nat) (c : Char) (rest : List Char) (i : Nat)
    (h1 : c ≠ '"') (h2 : c ≠ '\\') (hi : i < lim) :
    copyString lim (c :: rest) i = c :: copyString lim rest (i + 1) := by
  cases rest <;> simp [copyString, h1, h2, hi]

theorem copyString_esc (lim : Nat) (e : Char) (rest : List Char) (i : Nat) (hi : i < lim) :
    copyString lim ('\\' :: e :: rest) i = unescape e :: copyString lim rest (i + 1) := by
  simp [copyString, hi]

/-- The string loop gives the value the string stands for when it fits. -/
theorem copyString_decode (lim : Nat) :
    ∀ (b : List JChar) (i : Nat) (v Y : List Char), b.all JChar.wf = true →
      jDecode b = some v → i + v.length ≤ lim →
      copyString lim (renderBody b ++ '"' :: Y) i = v := by
  intro b
  induction b with
  | nil =>
    intro i v Y _ hd _
    simp only [jDecode, Option.some.injEq] at hd
    subst hd
    exact copyString_quote lim Y i
  | cons x xs ih =>
    intro i v Y hb hd hl
    simp only [List.all_cons, Bool.and_eq_true] at hb
    simp only [jDecode] at hd
    cases hx : jDecodeChar x with
    | none => simp [hx] at hd
    | some ch =>
      cases hr : jDecode xs with
      | none => simp [hx, hr] at hd
      | some r =>
        simp only [hx, hr, Option.some.injEq] at hd
        subst hd
        simp only [List.length_cons] at hl
        have hi : i < lim := by omega
        have ihr := ih (i + 1) r Y hb.2 hr (by omega)
        cases x with
        | plain c =>
          obtain ⟨h1, h2⟩ := JChar.wf_plain hb.1
          simp only [jDecodeChar, Option.some.injEq] at hx
          subst hx
          show copyString lim (c :: (renderBody xs ++ '"' :: Y)) i = _
          rw [copyString_plain lim c _ i h1 h2 hi, ihr]
        | esc e =>
          have hu : unescape e = ch := by
            simp only [jDecodeChar] at hx
            unfold unescape
            split_ifs at hx ⊢
            all_goals exact Option.some.inj hx
          show copyString lim ('\\' :: e :: (renderBody xs ++ '"' :: Y)) i = _
          rw [copyString_esc lim e _ i hi, ihr, hu]

theorem JField.render_append (g : JField) (B : List Char) :
    g.render ++ B
      = g.ws0 ++ ('"' :: (renderBody g.key ++ ('"' :: (g.ws1 ++ (':' :: (g.ws2
          ++ (g.val.render ++ (g.ws3 ++ B)))))))) := by
  simp [JField.render]

theorem scalar_ne_quote (text : List Char) (h : text.all isScalarChar = true) :
    ∀ c ∈ text, c ≠ '"' := by
  intro c hc e
  have := List.all_eq_true.mp h c hc
  rw [e] at this
  exact absurd this (by decide)

/-- A member whose key is not the one looked for is passed over, up to and
including the comma after it. -/
theorem json_get_from_field (key : List Char) (out : CStr) (outlen : Nat)
    (hk : ∀ k ∈ key, k ≠ '"' ∧ k ≠ '\\' ∧ isBlank k = false ∧ k ≠ ':' ∧ k ≠ ',')
    (g : JField) (hg : g.wf = true) (hne : renderBody g.key ≠ key)
    (rev B : List Char) :
    ∃ more, json_get_from ('"' :: (key ++ ['"'])) out outlen rev (g.render ++ ',' :: B)
      = json_get_from ('"' :: (key ++ ['"'])) out outlen (',' :: more) B := by
  simp only [JField.wf, Bool.and_eq_true, List.all_eq_true] at hg
  obtain ⟨⟨⟨⟨⟨h0, hkey⟩, h1⟩, h2⟩, hv⟩, h3⟩ := hg
  have hkey2 : g.key.all JChar.wf = true := List.all_eq_true.mpr hkey
  have hcolon : ∀ c ∈ [':'], c ≠ '"' := by decide
  have hcomma : ∀ c ∈ [','], c ≠ '"' := by decide
  rw [JField.render_append]
  -- the blanks before the key
  rw [json_get_from_noquote key out outlen g.ws0 rev _ (blank_ne_quote _ h0)]
  -- the opening quote of the key: the pattern does not start here
  rw [json_get_from_slide (by simp) out outlen _ '"' _ (by
    intro hcon
    have hp := hcon.1
    simp only [List.isPrefixOf, beq_self_eq_true, Bool.true_and] at hp
    exact hne (key_prefix_body g.key key _ hkey2 (fun k hk2 => ⟨(hk k hk2).1, (hk k hk2).2.1⟩)
      hp))]
  -- the key
  rw [json_get_from_body key out outlen g.key _ _ hkey2]
  -- its closing quote
  rw [json_get_from_slide (by simp) out outlen _ '"' _ (by
    rw [closing_quote_mismatch key (fun k hk2 => (hk k hk2).2.2) g.ws1 h1 ':' (Or.inl rfl)]
    simp)]
  -- blanks, colon, blanks
  rw [json_get_from_noquote key out outlen g.ws1 _ _ (blank_ne_quote _ h1)]
  have hsplit : ∀ X : List Char, ':' :: X = [':'] ++ X := fun _ => rfl
  rw [hsplit, json_get_from_noquote key out outlen [':'] _ _ hcolon,
    json_get_from_noquote key out outlen g.ws2 _ _ (blank_ne_quote _ h2)]
  -- the value
  cases hval : g.val with
  | scalar text =>
    rw [hval] at hv
    simp only [JValue.wf, Bool.and_eq_true] at hv
    simp only [JValue.render]
    rw [json_get_from_noquote key out outlen text _ _ (scalar_ne_quote text hv.2),
      json_get_from_noquote key out outlen g.ws3 _ _ (blank_ne_quote _ h3)]
    have hsplit2 : ',' :: B = [','] ++ B := rfl
    rw [hsplit2, json_get_from_noquote key out outlen [','] _ _ hcomma]
    exact ⟨_, rfl⟩
  | str body =>
    rw [hval] at hv
    simp only [JValue.wf] at hv
    simp only [JValue.render, List.cons_append, List.append_assoc, List.nil_append]
    -- the opening quote of the value follows the colon
    rw [json_get_from_slide (by simp) out outlen _ '"' _ (by
      have : keyContext (g.ws2.reverse ++ ([':'].reverse ++ (g.ws1.reverse ++ ('"' ::
          ((renderBody g.key).reverse ++ ('"' :: (g.ws0.reverse ++ rev))))))) = false := by
        rw [show [':'].reverse ++ (g.ws1.reverse ++ ('"' ::
            ((renderBody g.key).reverse ++ ('"' :: (g.ws0.reverse ++ rev)))))
          = ':' :: (g.ws1.reverse ++ ('"' ::
            ((renderBody g.key).reverse ++ ('"' :: (g.ws0.reverse ++ rev))))) from rfl]
        rw [keyContext_blanks g.ws2.reverse (fun c hc => h2 c (List.mem_reverse.mp hc)) ':' _
          (by decide)]
        decide
      rw [this]
      simp)]
    rw [json_get_from_body key out outlen body _ _ hv]
    -- the closing quote of the value
    rw [json_get_from_slide (by simp) out outlen _ '"' _ (by
      rw [closing_quote_mismatch key (fun k hk2 => (hk k hk2).2.2) g.ws3 h3 ',' (Or.inr rfl)]
      simp)]
    rw [json_get_from_noquote key out outlen g.ws3 _ _ (blank_ne_quote _ h3)]
    have hsplit2 : ',' :: B = [','] ++ B := rfl
    rw [hsplit2, json_get_from_noquote key out outlen [','] _ _ hcomma]
    exact ⟨_, rfl⟩

/-- At a key that is the one looked for and is followed by blanks, a colon and
blanks, `json_get` reads the value that comes next. -/
theorem json_get_step_at_key (key : List Char) (out : CStr) (outlen : Nat)
    (rev ws1 ws2 : List Char) (x : Char) (X : List Char)
    (hkc : keyContext rev = true) (h1 : ∀ c ∈ ws1, isBlank c = true)
    (h2 : ∀ c ∈ ws2, isBlank c = true) (hx : isBlank x = false) :
    json_get_step ('"' :: (key ++ ['"'])) out outlen rev
        ('"' :: (key ++ ('"' :: (ws1 ++ (':' :: (ws2 ++ x :: X))))))
      = .inl (readValue out outlen (x :: X)) := by
  have hp : ('"' :: (key ++ ['"'])).isPrefixOf
      ('"' :: (key ++ ('"' :: (ws1 ++ (':' :: (ws2 ++ x :: X)))))) = true := by
    rw [List.isPrefixOf_iff_prefix]
    exact ⟨ws1 ++ (':' :: (ws2 ++ x :: X)), by simp⟩
  have hdrop : List.drop ('"' :: (key ++ ['"'])).length
      ('"' :: (key ++ ('"' :: (ws1 ++ (':' :: (ws2 ++ x :: X))))))
      = ws1 ++ (':' :: (ws2 ++ x :: X)) := by
    have : ('"' :: (key ++ ('"' :: (ws1 ++ (':' :: (ws2 ++ x :: X))))))
        = ('"' :: (key ++ ['"'])) ++ (ws1 ++ (':' :: (ws2 ++ x :: X))) := by simp
    rw [this, List.drop_left]
  unfold json_get_step
  simp only [strstr, hp, if_true, hkc, hdrop]
  rw [skipBlanks_blanks ws1 _ ':' _ h1 (by decide)]
  simp only [if_true]
  rw [skipBlanks_blanks ws2 _ x X h2 hx]

/-- The member whose key is the one looked for and whose value is a string:
`json_get` returns 1 with the value the string stands for, when it fits
`out`. -/
theorem json_get_from_target (key : List Char) (out : CStr) (outlen : Nat)
    (f : JField) (body : List JChar) (v : List Char)
    (h0 : ∀ c ∈ f.ws0, isBlank c = true) (h1 : ∀ c ∈ f.ws1, isBlank c = true)
    (h2 : ∀ c ∈ f.ws2, isBlank c = true)
    (hkey : renderBody f.key = key) (hval : f.val = .str body)
    (hb : body.all JChar.wf = true) (hd : jDecode body = some v)
    (hl : v.length ≤ outlen - 1)
    (d : Char) (more : List Char) (hdm : d = '{' ∨ d = ',') (Y : List Char) :
    json_get_from ('"' :: (key ++ ['"'])) out outlen (d :: more) (f.render ++ Y) = (1, v) := by
  have hdb : isBlank d = false := by rcases hdm with rfl | rfl <;> decide
  have hkc : keyContext (f.ws0.reverse ++ d :: more) = true := by
    rw [keyContext_blanks f.ws0.reverse (fun c hc => h0 c (List.mem_reverse.mp hc)) d more hdb]
    rcases hdm with rfl | rfl <;> decide
  rw [JField.render_append, json_get_from_noquote key out outlen f.ws0 _ _ (blank_ne_quote _ h0),
    json_get_from_step (by simp), hkey, hval]
  simp only [JValue.render, List.cons_append, List.append_assoc]
  rw [json_get_step_at_key key out outlen _ f.ws1 f.ws2 '"' _ hkc h1 h2 (by decide)]
  simp only [readValue, if_true]
  rw [copyString_decode (outlen - 1) body 0 v _ hb hd (by omega)]

theorem renderFields_cons (g : JField) (rest : List JField) (h : rest ≠ []) :
    renderFields (g :: rest) = g.render ++ ',' :: renderFields rest := by
  cases rest with
  | nil => exact absurd rfl h
  | cons a r => rfl

theorem renderFields_head (f : JField) (fs2 : List JField) (tail : List Char) :
    ∃ Y, renderFields (f :: fs2) ++ tail = f.render ++ Y := by
  cases fs2 with
  | nil => exact ⟨tail, rfl⟩
  | cons a r => exact ⟨',' :: renderFields (a :: r) ++ tail, by simp [renderFields]⟩

/-- The members before the one looked for are passed over. -/
theorem json_get_from_fields (key : List Char) (out : CStr) (outlen : Nat)
    (hk : ∀ k ∈ key, k ≠ '"' ∧ k ≠ '\\' ∧ isBlank k = false ∧ k ≠ ':' ∧ k ≠ ',')
    (f : JField) (fs2 : List JField) (body : List JChar) (v tail : List Char)
    (hf : f.wf = true) (hkey : renderBody f.key = key) (hval : f.val = .str body)
    (hd : jDecode body = some v) (hl : v.length ≤ outlen - 1) :
    ∀ (fs1 : List JField) (d : Char) (more : List Char), (d = '{' ∨ d = ',') →
      (∀ g ∈ fs1, g.wf = true ∧ renderBody g.key ≠ key) →
      json_get_from ('"' :: (key ++ ['"'])) out outlen (d :: more)
        (renderFields (fs1 ++ f :: fs2) ++ tail) = (1, v) := by
  have hf2 := hf
  simp only [JField.wf, Bool.and_eq_true, List.all_eq_true] at hf2
  obtain ⟨⟨⟨⟨⟨h0, -⟩, h1⟩, h2⟩, hv⟩, -⟩ := hf2
  rw [hval] at hv
  simp only [JValue.wf] at hv
  intro fs1
  induction fs1 with
  | nil =>
    intro d more hdm _
    obtain ⟨Y, hY⟩ := renderFields_head f fs2 tail
    rw [List.nil_append, hY]
    exact json_get_from_target key out outlen f body v h0 h1 h2 hkey hval hv hd hl d more hdm Y
  | cons g fs1 ih =>
    intro d more _ hall
    obtain ⟨hg, hne⟩ := hall g (List.mem_cons_self _ _)
    rw [List.cons_append, renderFields_cons g _ (by simp), List.append_assoc,
      List.cons_append]
    obtain ⟨more2, h⟩ := json_get_from_field key out outlen hk g hg hne (d :: more)
      (renderFields (fs1 ++ f :: fs2) ++ tail)
    rw [h]
    exact ih ',' more2 (Or.inr rfl) (fun x hx => hall x (List.mem_cons_of_mem _ hx))

theorem jLookup_split (fs : List JField) (key : List Char) (val : JValue)
    (h : jLookup fs key = some val) :
    ∃ fs1 f fs2, fs = fs1 ++ f :: fs2 ∧ renderBody f.key = key ∧ f.val = val
      ∧ ∀ g ∈ fs1, renderBody g.key ≠ key := by
  induction fs with
  | nil => simp [jLookup] at h
  | cons a r ih =>
    by_cases ha : renderBody a.key = key
    · have hb : (renderBody a.key == key) = true := by simpa using ha
      refine ⟨[], a, r, rfl, ha, ?_, by simp⟩
      simp only [jLookup, List.find?, hb, Option.map_some', Option.some.injEq] at h
      exact h
    · have hb : (renderBody a.key == key) = false := by simpa using ha
      have h2 : jLookup r key = some val := by
        simp only [jLookup, List.find?, hb] at h
        exact h
      obtain ⟨fs1, f, fs2, e, hk, hv, hall⟩ := ih h2
      refine ⟨a :: fs1, f, fs2, by rw [e]; rfl, hk, hv, ?_⟩
      intro g hg
      rcases List.mem_cons.mp hg with rfl | hg
      · exact ha
      · exact hall g hg

theorem keyPattern_eq (key : CStr) (h : key.length ≤ 253) :
    keyPattern key = '"' :: (key ++ ['"']) := by
  unfold keyPattern
  rw [snprintf_of_fits]
  · rfl
  · simp
    omega

/-- The extractor on a well-formed flat object: for a key made of ordinary
characters, when the first member written with that key has a string value
that only uses the escapes of the table and fits `out`, `json_get` returns 1
and `out` holds exactly the value. -/
theorem json_get_flat_object (fs : List JField) (tail key out : CStr) (outlen : Nat)
    (body : List JChar) (v : List Char)
    (hwf : ∀ g ∈ fs, g.wf = true)
    (hk : ∀ k ∈ key, k ≠ '"' ∧ k ≠ '\\' ∧ isBlank k = false ∧ k ≠ ':' ∧ k ≠ ',')
    (hkl : key.length ≤ 253)
    (hlook : jLookup fs key = some (.str body)) (hd : jDecode body = some v)
    (hl : v.length ≤ outlen - 1) :
    json_get (renderObj fs ++ tail) key out outlen = (1, v) := by
  obtain ⟨fs1, f, fs2, e, hkey, hval, hall⟩ := jLookup_split fs key _ hlook
  subst e
  rw [json_get_eq_from, keyPattern_eq key hkl]
  show json_get_from _ out outlen []
    ('{' :: ((renderFields (fs1 ++ f :: fs2) ++ ['}']) ++ tail)) = _
  rw [json_get_from_slide (by simp) out outlen [] '{' _
    (by rw [isPrefixOf_cons_ne _ _ _ _ (by decide)]; simp), List.append_assoc]
  exact json_get_from_fields key out outlen hk f fs2 body v (['}'] ++ tail)
    (hwf f (by simp)) hkey hval hd hl fs1 '{' [] (Or.inl rfl)
    (fun g hg => ⟨hwf g (by simp [hg]), hall g hg⟩)

/-- C1 (as stated, refuted). Three well-formed flat objects on which the
extractor does not return the exact values: an `id` of 32 characters is cut
to the 31 that fit `r->id`; a carriage return before the key `title`, which
JSON allows as white space, makes `json_get` return 0; the escape `\u0041`
comes out as `?0041`. -/
theorem json_get_flat_object_fails :
    ((∀ g ∈ longIdFields, g.wf = true)
        ∧ jLookup longIdFields "id".toList = some (.str (List.replicate 32 (.plain 'a')))
        ∧ jDecode (List.replicate 32 (.plain 'a')) = some (List.replicate 32 'a')
        ∧ json_get (renderObj longIdFields) "id".toList [] 32 = (1, List.replicate 31 'a'))
      ∧ json_get "\x7b\r\"title\": \"t\", \"id\": \"i\"\x7d".toList "title".toList [] 512
          = (0, [])
      ∧ json_get "\x7b\"title\": \"\\u0041\", \"id\": \"i\"\x7d".toList "title".toList [] 512
          = (1, "?0041".toList) := by
  decide

/-- C1 (amended). For every line that is a well-formed flat JSON object whose
white space is made of spaces and tabs, followed by anything (the end of
line), when the first members written with the keys `title` and `id` have
string values that use no escape but `\n`, `\t`, `\\`, `\"` and `\/` and that
stand for at most 511 and 31 characters, the two calls of `search_youtube`,
`json_get(line, "title", r->title, 512)` and `json_get(line, "id", r->id, 32)`,
return 1 and leave in `out` exactly the value, the escapes decoded. -/
theorem json_get_title_id (fs : List JField) (tail out1 out2 : CStr)
    (tbody ibody : List JChar) (tv iv : List Char)
    (hwf : ∀ g ∈ fs, g.wf = true)
    (ht : jLookup fs "title".toList = some (.str tbody))
    (hi : jLookup fs "id".toList = some (.str ibody))
    (htd : jDecode tbody = some tv) (hid : jDecode ibody = some iv)
    (htl : tv.length ≤ 511) (hil : iv.length ≤ 31) :
    json_get (renderObj fs ++ tail) "title".toList out1 512 = (1, tv)
      ∧ json_get (renderObj fs ++ tail) "id".toList out2 32 = (1, iv) :=
  ⟨json_get_flat_object fs tail _ out1 512 tbody tv hwf (by decide) (by decide) ht htd
      (by omega),
    json_get_flat_object fs tail _ out2 32 ibody iv hwf (by decide) (by decide) hi hid
      (by omega)⟩

theorem json_get_title_id_witness :
    json_get (renderObj sampleFields ++ "\n".toList) "title".toList [] 512
        = (1, "a\nb/c".toList)
      ∧ json_get (renderObj sampleFields ++ "\n".toList) "id".toList [] 32
        = (1, "xyz".toList) :=
  json_get_title_id sampleFields "\n".toList [] []
    [.plain 'a', .esc 'n', .plain 'b', .esc '/', .plain 'c'] ("xyz".toList.map JChar.plain)
    "a\nb/c".toList "xyz".toList (by decide) (by decide) (by decide) (by decide) (by decide)
    (by decide) (by decide)

/-! ## Proofs: the bounds of the search command -/

theorem escapeLoop_eq_escape : ∀ (q : List Char) (j : Nat),
    escapeLoop q j = shell_escape (escapeKept q j) := by
  intro q
  induction q with
  | nil => intro j; rfl
  | cons c s ih =>
    intro j
    by_cases hj : j < 4096 - 5
    · by_cases hc : c = SQ
      · subst hc
        simp only [escapeLoop, escapeKept, hj, if_true, shell_escape, ih]
      · simp only [escapeLoop, escapeKept, hj, hc, if_true, if_false, shell_escape, ih]
    · simp only [escapeLoop, escapeKept, hj, if_false, shell_escape]

theorem escapeKept_initial : ∀ (q : List Char) (j : Nat), escapeKept q j <+: q := by
  intro q
  induction q with
  | nil => intro j; exact List.prefix_refl _
  | cons c s ih =>
    intro j
    by_cases hj : j < 4096 - 5
    · simp only [escapeKept, hj, if_true]
      exact (List.prefix_cons_inj c).mpr (ih _)
    · simp only [escapeKept, hj, if_false]
      exact List.nil_prefix

theorem search_cmd_text_length (c : Config) (hlo : -2 ^ 31 ≤ c.num_results)
    (hhi : c.num_results < 2 ^ 31) : (search_cmd_text c).length ≤ 4177 := by
  have hlen := escapeLoop_length c.query 0 (by omega)
  have hd := fmt_ld_length_int c.num_results hlo hhi
  have e1 : "yt-dlp --no-warnings --flat-playlist --dump-json".toList.length = 48 := by decide
  have e2 : " 2>/dev/null".toList.length = 12 := by decide
  have e3 : "ytsearch".toList.length = 8 := by decide
  simp only [search_cmd_text, List.length_append, e1, e2, e3]
  simp
  omega

/-- C14. For every query and every `int` count: the escaping loop stores at
most 4094 characters, so its terminator falls inside `safe_q[4096]`; what it
stores is the escaping of a prefix of the query, whole four-character units
only, and the command splits by the shell rules with no quote left open; the
command text has fewer than `MAX_CMD` = 8192 characters, so `snprintf` keeps
all of it, and it ends in the closing single quote and the redirection of
the diagnostics. -/
theorem search_cmd_within_bounds (c : Config) (hlo : -2 ^ 31 ≤ c.num_results)
    (hhi : c.num_results < 2 ^ 31) :
    (escapeLoop c.query 0).length ≤ 4094
      ∧ (∃ k, escapeLoop c.query 0 = shell_escape (c.query.take k)
          ∧ shTokens (search_cmd c) = some (search_tokens c (c.query.take k)))
      ∧ (search_cmd_text c).length < MAX_CMD
      ∧ search_cmd c = search_cmd_text c
      ∧ ∃ body, search_cmd c = body ++ [SQ] ++ " 2>/dev/null".toList := by
  have hlen := escapeLoop_length c.query 0 (by omega)
  have htxt := search_cmd_text_length c hlo hhi
  have hfit : search_cmd c = search_cmd_text c :=
    snprintf_of_fits MAX_CMD (search_cmd_text c) (by simp only [MAX_CMD]; omega)
  refine ⟨by omega, ?_, by simp only [MAX_CMD]; omega, hfit, ?_⟩
  · obtain ⟨k, hk⟩ : ∃ k, escapeKept c.query 0 = c.query.take k :=
      ⟨(escapeKept c.query 0).length, List.prefix_iff_eq_take.mp (escapeKept_initial c.query 0)⟩
    refine ⟨k, ?_, ?_⟩
    · rw [escapeLoop_eq_escape, hk]
    · rw [search_cmd_tokens c hlo hhi, hk]
  · rw [hfit]
    exact ⟨_, rfl⟩

theorem search_cmd_within_bounds_witness :
    (escapeLoop quotesConfig.query 0).length ≤ 4094
      ∧ (∃ k, escapeLoop quotesConfig.query 0 = shell_escape (quotesConfig.query.take k)
          ∧ shTokens (search_cmd quotesConfig)
            = some (search_tokens quotesConfig (quotesConfig.query.take k)))
      ∧ (search_cmd_text quotesConfig).length < MAX_CMD
      ∧ search_cmd quotesConfig = search_cmd_text quotesConfig
      ∧ ∃ body, search_cmd quotesConfig = body ++ [SQ] ++ " 2>/dev/null".toList :=
  search_cmd_within_bounds quotesConfig (by decide) (by decide)

/-! ## Proofs: where the extractor reads its value -/

theorem skipBlanks_decomp :
    ∀ (s rev : List Char), ∃ bl, (∀ c ∈ bl, isBlank c = true)
      ∧ s = bl ++ (skipBlanks rev s).2 ∧ (skipBlanks rev s).1 = bl.reverse ++ rev := by
  intro s
  induction s with
  | nil => intro rev; exact ⟨[], by simp, by simp [skipBlanks], by simp [skipBlanks]⟩
  | cons c s ih =>
    intro rev
    by_cases hc : isBlank c = true
    · obtain ⟨bl, h1, h2, h3⟩ := ih (c :: rev)
      refine ⟨c :: bl, ?_, ?_, ?_⟩
      · intro d hd
        rcases List.mem_cons.mp hd with rfl | hd
        · exact hc
        · exact h1 d hd
      · simp only [skipBlanks, hc, if_true, List.cons_append]
        rw [← h2]
      · simp only [skipBlanks, hc, if_true]
        rw [h3]
        simp
    · exact ⟨[], by simp, by simp [skipBlanks, hc], by simp [skipBlanks, hc]⟩

/-- One iteration of the loop, for every capacity of `out` at once: it goes on
from a point that does not depend on the capacity, or returns 0 with `out`
untouched, or has found the quoted key in the text of a key, followed by
blanks, a colon and blanks, and returns the reading of what comes next. -/
theorem json_get_step_shape (pat : List Char) (out : CStr) (rev suf : List Char) :
    (∃ q, ∀ n, json_get_step pat out n rev suf = .inr q)
      ∨ (∀ n, json_get_step pat out n rev suf = .inl (0, out))
      ∨ (∃ pre post bl1 bl2 X, rev.reverse ++ suf = pre ++ (pat ++ post)
          ∧ keyContext pre.reverse = true
          ∧ post = bl1 ++ ':' :: (bl2 ++ X)
          ∧ (∀ c ∈ bl1, isBlank c = true) ∧ (∀ c ∈ bl2, isBlank c = true)
          ∧ ∀ n, json_get_step pat out n rev suf = .inl (readValue out n X)) := by
  cases hs : strstr pat rev suf with
  | none =>
    right; left
    intro n
    simp [json_get_step, hs]
  | some rp =>
    obtain ⟨r1, p⟩ := rp
    obtain ⟨-, hpre, hcat⟩ := strstr_spec pat _ _ _ _ hs
    obtain ⟨t, ht⟩ := List.isPrefixOf_iff_prefix.mp hpre
    have hdrop : List.drop pat.length p = t := by rw [← ht, List.drop_left]
    by_cases hk : keyContext r1 = true
    · obtain ⟨bl1, hb1, hd1, -⟩ := skipBlanks_decomp t (pat.reverse ++ r1)
      cases hq : (skipBlanks (pat.reverse ++ r1) t).2 with
      | nil =>
        left
        refine ⟨skipBlanks (pat.reverse ++ r1) t, ?_⟩
        intro n
        simp [json_get_step, hs, hk, hdrop, hq]
      | cons ch rest =>
        by_cases hc : ch = ':'
        · right; right
          obtain ⟨bl2, hb2, hd2, -⟩ :=
            skipBlanks_decomp rest (ch :: (skipBlanks (pat.reverse ++ r1) t).1)
          refine ⟨r1.reverse, t, bl1, bl2,
            (skipBlanks (ch :: (skipBlanks (pat.reverse ++ r1) t).1) rest).2,
            ?_, by simpa using hk, ?_, hb1, hb2, ?_⟩
          · rw [← hcat, ← ht]
          · have e : t = bl1 ++ ':' :: rest := by
              rw [hq, hc] at hd1
              exact hd1
            exact e.trans (by rw [← hd2])
          · intro n
            simp [json_get_step, hs, hk, hdrop, hq, hc]
        · left
          refine ⟨skipBlanks (pat.reverse ++ r1) t, ?_⟩
          intro n
          simp [json_get_step, hs, hk, hdrop, hq, hc]
    · cases p with
      | nil =>
        right; left
        intro n
        simp [json_get_step, hs, hk]
      | cons ch rest =>
        left
        refine ⟨(ch :: r1, rest), ?_⟩
        intro n
        simp [json_get_step, hs, hk]

theorem json_get_loop_shape {pat : List Char} (hpat : pat ≠ []) (out : CStr) :
    ∀ (fuel : Nat) (rev suf : List Char), suf.length < fuel →
      (∀ n, json_get_loop pat out n fuel rev suf = some (0, out))
        ∨ (∃ pre post bl1 bl2 X, rev.reverse ++ suf = pre ++ (pat ++ post)
            ∧ keyContext pre.reverse = true
            ∧ post = bl1 ++ ':' :: (bl2 ++ X)
            ∧ (∀ c ∈ bl1, isBlank c = true) ∧ (∀ c ∈ bl2, isBlank c = true)
            ∧ ∀ n, json_get_loop pat out n fuel rev suf = some (readValue out n X)) := by
  intro fuel
  induction fuel with
  | zero => intro rev suf h; omega
  | succ f ih =>
    intro rev suf hf
    rcases json_get_step_shape pat out rev suf with ⟨q, hq⟩ | h0 | ⟨pre, post, bl1, bl2, X,
      h1, h2, h3, h4, h5, h6⟩
    · obtain ⟨hlt, -, hcat⟩ := json_get_step_inr hpat out 0 rev suf q (hq 0)
      rcases ih q.1 q.2 (by omega) with h | ⟨pre, post, bl1, bl2, X, h1, h2, h3, h4, h5, h6⟩
      · left
        intro n
        rw [json_get_loop, hq n]
        exact h n
      · right
        refine ⟨pre, post, bl1, bl2, X, by rw [← hcat]; exact h1, h2, h3, h4, h5, ?_⟩
        intro n
        rw [json_get_loop, hq n]
        exact h6 n
    · left
      intro n
      rw [json_get_loop, h0 n]
    · right
      refine ⟨pre, post, bl1, bl2, X, h1, h2, h3, h4, h5, ?_⟩
      intro n
      rw [json_get_loop, h6 n]

/-- What `json_get` does, for every capacity of `out` at once: it returns 0
with `out` untouched, or it has found the quoted key where the text before it
is that of a key, followed by blanks, a colon and blanks, and it returns the
reading of the value `X` that comes next. -/
theorem json_get_shape (json key out : CStr) :
    (∀ n, json_get json key out n = (0, out))
      ∨ (∃ pre post bl1 bl2 X, json = pre ++ (keyPattern key ++ post)
          ∧ keyContext pre.reverse = true
          ∧ post = bl1 ++ ':' :: (bl2 ++ X)
          ∧ (∀ c ∈ bl1, isBlank c = true) ∧ (∀ c ∈ bl2, isBlank c = true)
          ∧ ∀ n, json_get json key out n = readValue out n X) := by
  rcases json_get_loop_shape (keyPattern_ne_nil key) out (json.length + 1) [] json (by omega)
    with h | ⟨pre, post, bl1, bl2, X, h1, h2, h3, h4, h5, h6⟩
  · left
    intro n
    simp [json_get, h n]
  · right
    refine ⟨pre, post, bl1, bl2, X, by simpa using h1, h2, h3, h4, h5, ?_⟩
    intro n
    simp [json_get, h6 n]

/-! ## Proofs: the output stays within its capacity -/

theorem copyString_nil (lim i : Nat) : copyString lim [] i = [] := by
  simp [copyString]

theorem copyString_stop (lim : Nat) (c : Char) (rest : List Char) (i : Nat)
    (h : ¬ (c ≠ '"' ∧ i < lim)) : copyString lim (c :: rest) i = [] := by
  cases rest <;> simp only [copyString, h, if_false]

theorem copyString_lone_backslash (lim i : Nat) (hi : i < lim) :
    copyString lim ['\\'] i = ['\\'] := by
  simp [copyString, hi]

theorem copyString_take_aux (lim lim2 : Nat) (hl : lim ≤ lim2) :
    ∀ (k : Nat) (p : List Char) (i : Nat), p.length ≤ k →
      (copyString lim p i).length ≤ lim - i
        ∧ copyString lim p i = (copyString lim2 p i).take (lim - i) := by
  intro k
  induction k with
  | zero =>
    intro p i hp
    have : p = [] := List.eq_nil_of_length_eq_zero (by omega)
    subst this
    simp [copyString_nil]
  | succ k ih =>
    intro p i hp
    cases p with
    | nil => simp [copyString_nil]
    | cons c rest =>
      simp only [List.length_cons] at hp
      by_cases hq : c = '"'
      · rw [copyString_stop lim c rest i (by simp [hq]),
          copyString_stop lim2 c rest i (by simp [hq])]
        simp
      · by_cases hi : i < lim
        · have hi2 : i < lim2 := by omega
          have hsub : lim - i = (lim - (i + 1)) + 1 := by omega
          by_cases hb : c = '\\'
          · subst hb
            cases rest with
            | nil =>
              rw [copyString_lone_backslash lim i hi, copyString_lone_backslash lim2 i hi2,
                hsub]
              simp
            | cons e rest2 =>
              simp only [List.length_cons] at hp
              obtain ⟨h1, h2⟩ := ih rest2 (i + 1) (by omega)
              rw [copyString_esc lim e rest2 i hi, copyString_esc lim2 e rest2 i hi2, hsub,
                List.take_succ_cons, ← h2]
              exact ⟨by simp only [List.length_cons]; omega, rfl⟩
          · obtain ⟨h1, h2⟩ := ih rest (i + 1) (by omega)
            rw [copyString_plain lim c rest i hq hb hi, copyString_plain lim2 c rest i hq hb hi2,
              hsub, List.take_succ_cons, ← h2]
            exact ⟨by simp only [List.length_cons]; omega, rfl⟩
        · rw [copyString_stop lim c rest i (by simp [hi])]
          have : lim - i = 0 := by omega
          simp [this]

theorem copyNumber_take (lim lim2 : Nat) (hl : lim ≤ lim2) :
    ∀ (p : List Char) (i : Nat),
      (copyNumber lim p i).length ≤ lim - i
        ∧ copyNumber lim p i = (copyNumber lim2 p i).take (lim - i) := by
  intro p
  induction p with
  | nil => intro i; simp [copyNumber]
  | cons c rest ih =>
    intro i
    by_cases hc : c = '-' ∨ isdigit c = true
    · by_cases hi : i < lim
      · have hi2 : i < lim2 := by omega
        have hsub : lim - i = (lim - (i + 1)) + 1 := by omega
        obtain ⟨h1, h2⟩ := ih (i + 1)
        simp only [copyNumber, hc, hi, hi2, and_self, if_true]
        rw [hsub, List.take_succ_cons, ← h2]
        exact ⟨by simp only [List.length_cons]; omega, rfl⟩
      · have : lim - i = 0 := by omega
        simp [copyNumber, hi, this]
    · simp [copyNumber, hc]

theorem readValue_fst (out : CStr) (n m : Nat) (X : List Char) :
    (readValue out n X).1 = (readValue out m X).1 := by
  cases X with
  | nil => rfl
  | cons c rest =>
    simp only [readValue]
    split
    · rfl
    · split
      · rfl
      · split <;> rfl

/-- A successful reading holds at most `outlen - 1` characters, and it is the
reading for a larger capacity cut to its first `outlen - 1` characters. -/
theorem readValue_take (out : CStr) (n m : Nat) (hnm : n ≤ m) (X : List Char)
    (hs : (readValue out n X).1 ≠ 0) :
    (readValue out n X).2.length ≤ n - 1
      ∧ (readValue out n X).2 = ((readValue out m X).2).take (n - 1) := by
  cases X with
  | nil => simp [readValue] at hs
  | cons c rest =>
    simp only [readValue] at hs ⊢
    split at hs
    · rename_i hc
      simp only [hc, if_true]
      have := copyString_take_aux (n - 1) (m - 1) (by omega) rest.length rest 0 (le_refl _)
      simpa using this
    · rename_i hc
      split at hs
      · rename_i hd
        simp only [hc, if_false, hd, if_true]
        have := copyNumber_take (n - 1) (m - 1) (by omega) (c :: rest) 0
        simpa using this
      · split at hs <;> simp at hs

/-- C11. For every line, every key and every capacity `outlen ≥ 1`, when
`json_get` returns success the text left in `out` has at most `outlen - 1`
characters, so that it and its terminator lie below index `outlen`; a larger
capacity gives the same return value, and the text is what the larger
capacity gives, cut to its first `outlen - 1` characters. -/
theorem json_get_bounded (json key out : CStr) (outlen : Nat) (h1 : 1 ≤ outlen)
    (hs : (json_get json key out outlen).1 ≠ 0) :
    (json_get json key out outlen).2.length ≤ outlen - 1
      ∧ (json_get json key out outlen).2.length + 1 ≤ outlen
      ∧ ∀ big, outlen ≤ big →
          (json_get json key out big).1 = (json_get json key out outlen).1
            ∧ (json_get json key out outlen).2
                = ((json_get json key out big).2).take (outlen - 1) := by
  rcases json_get_shape json key out with h | ⟨pre, post, bl1, bl2, X, -, -, -, -, -, h⟩
  · rw [h outlen] at hs
    exact absurd rfl hs
  · rw [h outlen] at hs ⊢
    have hb := (readValue_take out outlen outlen (le_refl _) X hs).1
    refine ⟨hb, by omega, ?_⟩
    intro big hbig
    rw [h big]
    exact ⟨readValue_fst out big outlen X, (readValue_take out outlen big hbig X hs).2⟩

theorem json_get_bounded_witness :
    (json_get (renderObj longIdFields) "id".toList [] 32).2.length ≤ 32 - 1 :=
  (json_get_bounded (renderObj longIdFields) "id".toList [] 32 (by decide) (by decide)).1

/-- On a well-formed flat object a string value that does not fit `out` is cut
to its first `outlen - 1` decoded characters. -/
theorem json_get_flat_object_cut (fs : List JField) (tail key out : CStr) (outlen : Nat)
    (body : List JChar) (v : List Char)
    (hwf : ∀ g ∈ fs, g.wf = true)
    (hk : ∀ k ∈ key, k ≠ '"' ∧ k ≠ '\\' ∧ isBlank k = false ∧ k ≠ ':' ∧ k ≠ ',')
    (hkl : key.length ≤ 253)
    (hlook : jLookup fs key = some (.str body)) (hd : jDecode body = some v) :
    json_get (renderObj fs ++ tail) key out outlen = (1, v.take (outlen - 1)) := by
  have hfull := json_get_flat_object fs tail key out (max outlen (v.length + 1)) body v hwf hk
    hkl hlook hd (by omega)
  rcases json_get_shape (renderObj fs ++ tail) key out
    with h | ⟨pre, post, bl1, bl2, X, -, -, -, -, -, h⟩
  · rw [h] at hfull
    cases hfull
  · rw [h] at hfull
    have hs : (readValue out outlen X).1 ≠ 0 := by
      rw [readValue_fst out outlen (max outlen (v.length + 1)) X, hfull]
      exact one_ne_zero
    have ht := (readValue_take out outlen (max outlen (v.length + 1)) (by omega) X hs).2
    rw [h outlen]
    refine Prod.ext ?_ ?_
    · rw [readValue_fst out outlen (max outlen (v.length + 1)) X, hfull]
    · rw [ht, hfull]

/-! ## Proofs: the text before an accepted key -/

theorem blank_not_marker (c : Char) (h : isBlank c = true) : (c == '{' || c == ',') = false := by
  simp only [isBlank, Bool.or_eq_true, beq_iff_eq] at h
  rcases h with rfl | rfl <;> decide

theorem keyContext_eq_dropWhile : ∀ (rev : List Char), rev ≠ [] →
    keyContext rev = (match rev.dropWhile isBlank with
      | [] => false
      | c :: _ => c == '{' || c == ',') := by
  intro rev
  induction rev with
  | nil => intro h; exact absurd rfl h
  | cons c r ih =>
    intro _
    cases r with
    | nil =>
      by_cases hc : isBlank c = true
      · simp [keyContext, List.dropWhile, hc, blank_not_marker c hc]
      · simp [keyContext, List.dropWhile, hc]
    | cons c2 r2 =>
      by_cases hc : isBlank c = true
      · rw [keyContext]
        simp only [hc, if_true]
        rw [ih (by simp)]
        simp [List.dropWhile, hc]
      · rw [keyContext]
        simp [List.dropWhile, hc]

/-- The test of lines 155–157 lets a match through when it stands at the very
start of the line or when the text before it ends, blanks left aside, in one
of the two markers. -/
theorem keyContext_iff (before : List Char) :
    keyContext before.reverse = true ↔ (before = [] ∨ preceded_by_marker before = true) := by
  by_cases h : before = []
  · subst h
    simp [keyContext]
  · have hr : before.reverse ≠ [] := by simpa using h
    rw [keyContext_eq_dropWhile _ hr]
    simp [preceded_by_marker, h]

theorem any_marked_of_occurrence (pat before after : List Char)
    (hm : preceded_by_marker before = true) :
    any_marked pat (before ++ (pat ++ after)) = true := by
  unfold any_marked
  rw [List.any_eq_true]
  refine ⟨before.length, ?_, ?_⟩
  · rw [List.mem_range]
    simp
    omega
  · unfold marked_at
    rw [List.drop_left, List.take_left, hm, Bool.and_true, List.isPrefixOf_iff_prefix]
    exact List.prefix_append _ _

/-- When `json_get` returns success, the value it returned is read after an
occurrence of the quoted key (then blanks, a colon and blanks) that the test
of lines 155–157 let through: one at the very start of the line or one
preceded, blanks left aside, by one of the two markers. -/
theorem json_get_occurrence (json key out : CStr) (outlen : Nat)
    (hs : (json_get json key out outlen).1 ≠ 0) :
    ∃ before after bl1 bl2 X, json = before ++ (keyPattern key ++ after)
      ∧ (before = [] ∨ preceded_by_marker before = true)
      ∧ after = bl1 ++ ':' :: (bl2 ++ X)
      ∧ (∀ c ∈ bl1, isBlank c = true) ∧ (∀ c ∈ bl2, isBlank c = true)
      ∧ json_get json key out outlen = readValue out outlen X := by
  rcases json_get_shape json key out with h | ⟨pre, post, bl1, bl2, X, h1, h2, h3, h4, h5, h6⟩
  · rw [h outlen] at hs
    exact absurd rfl hs
  · exact ⟨pre, post, bl1, bl2, X, h1, (keyContext_iff pre).mp h2, h3, h4, h5, h6 outlen⟩

/-- A line that begins with the object-start marker does not begin with the
quoted key. -/
theorem keyPattern_not_at_brace (json key : CStr) (h : json.head? = some '{') :
    (keyPattern key).isPrefixOf json = false := by
  cases json with
  | nil => simp at h
  | cons c rest =>
    simp only [List.head?_cons, Option.some.injEq] at h
    subst h
    have hne := keyPattern_ne_nil key
    have hp : (keyPattern key).head? = some '"' := by
      simp [keyPattern, snprintf]
    cases hk : keyPattern key with
    | nil => exact absurd hk hne
    | cons a l =>
      rw [hk] at hp
      simp only [List.head?_cons, Option.some.injEq] at hp
      subst hp
      exact isPrefixOf_cons_ne _ _ _ _ (by decide)

/-- C12. For every key and every line that does not begin with the quoted key
(`search_youtube` only passes lines that begin with `{`; on a line that
begins with the quoted key the source forms `p - 1` before the array): if
`json_get` returns success, the value it returned is read after an occurrence
of the quoted key that is preceded, spaces and tabs left aside, by `{` or
`,`; and if no occurrence of the quoted key in the line is preceded so,
`json_get` returns 0.  The quoted key is the pattern `keyPattern key`, the
key between double quotes for a key of at most 253 characters. -/
theorem json_get_key_context (json key out : CStr) (outlen : Nat)
    (hstart : (keyPattern key).isPrefixOf json = false) :
    ((json_get json key out outlen).1 ≠ 0 →
        ∃ before after bl1 bl2 X, json = before ++ (keyPattern key ++ after)
          ∧ preceded_by_marker before = true
          ∧ after = bl1 ++ ':' :: (bl2 ++ X)
          ∧ (∀ c ∈ bl1, isBlank c = true) ∧ (∀ c ∈ bl2, isBlank c = true)
          ∧ json_get json key out outlen = readValue out outlen X)
      ∧ (any_marked (keyPattern key) json = false →
          (json_get json key out outlen).1 = 0) := by
  have first : (json_get json key out outlen).1 ≠ 0 →
      ∃ before after bl1 bl2 X, json = before ++ (keyPattern key ++ after)
        ∧ preceded_by_marker before = true
        ∧ after = bl1 ++ ':' :: (bl2 ++ X)
        ∧ (∀ c ∈ bl1, isBlank c = true) ∧ (∀ c ∈ bl2, isBlank c = true)
        ∧ json_get json key out outlen = readValue out outlen X := by
    intro hs
    obtain ⟨before, after, bl1, bl2, X, hj, hb, h3, h4, h5, h6⟩ :=
      json_get_occurrence json key out outlen hs
    refine ⟨before, after, bl1, bl2, X, hj, ?_, h3, h4, h5, h6⟩
    rcases hb with rfl | hb
    · exfalso
      rw [hj, List.nil_append] at hstart
      have : (keyPattern key).isPrefixOf (keyPattern key ++ after) = true := by
        rw [List.isPrefixOf_iff_prefix]
        exact List.prefix_append _ _
      rw [this] at hstart
      cases hstart
    · exact hb
  refine ⟨first, ?_⟩
  intro hany
  by_contra hs
  obtain ⟨before, after, -, -, -, hj, hb, -⟩ := first hs
  rw [hj, any_marked_of_occurrence _ _ _ hb] at hany
  cases hany

theorem json_get_key_context_witness :
    ∃ before after bl1 bl2 X,
      renderObj sampleFields = before ++ (keyPattern "title".toList ++ after)
        ∧ preceded_by_marker before = true
        ∧ after = bl1 ++ ':' :: (bl2 ++ X)
        ∧ (∀ c ∈ bl1, isBlank c = true) ∧ (∀ c ∈ bl2, isBlank c = true)
        ∧ json_get (renderObj sampleFields) "title".toList [] 512 = readValue [] 512 X :=
  (json_get_key_context (renderObj sampleFields) "title".toList [] 512
    (keyPattern_not_at_brace _ _ rfl)).1 (by decide)

/-! ## Proofs: unquoted values -/

theorem copyNumber_eq_takeWhile (lim : Nat) : ∀ (p : List Char) (i : Nat),
    copyNumber lim p i = (p.takeWhile isNumChar).take (lim - i) := by
  intro p
  induction p with
  | nil => intro i; simp [copyNumber]
  | cons c rest ih =>
    intro i
    by_cases hc : c = '-' ∨ isdigit c = true
    · have hn : isNumChar c = true := by
        simp only [isNumChar, Bool.or_eq_true, beq_iff_eq]
        exact hc
      by_cases hi : i < lim
      · have hsub : lim - i = (lim - (i + 1)) + 1 := by omega
        simp only [copyNumber, hc, hi, and_self, if_true, List.takeWhile_cons, hn]
        rw [hsub, List.take_succ_cons, ih]
      · have : lim - i = 0 := by omega
        simp [copyNumber, hi, this]
    · have hn : isNumChar c = false := by
        cases h : isNumChar c with
        | false => rfl
        | true =>
          simp only [isNumChar, Bool.or_eq_true, beq_iff_eq] at h
          exact absurd h hc
      simp [copyNumber, hc, List.takeWhile_cons, hn]

theorem takeWhile_append_stop (p : Char → Bool) (Z : List Char) (hZ : Z.takeWhile p = []) :
    ∀ t : List Char, (t ++ Z).takeWhile p = t.takeWhile p := by
  intro t
  induction t with
  | nil => simpa using hZ
  | cons c s ih =>
    simp only [List.cons_append, List.takeWhile_cons, ih]

theorem JValue.render_head (val : JValue) (h : val.wf = true) :
    ∃ x V, val.render = x :: V ∧ isBlank x = false := by
  cases val with
  | str body => exact ⟨'"', _, rfl, by decide⟩
  | scalar text =>
    simp only [JValue.wf, Bool.and_eq_true, Bool.not_eq_true', List.all_eq_true] at h
    cases text with
    | nil => simp at h
    | cons x t =>
      refine ⟨x, t, rfl, ?_⟩
      have hx := h.2 x (List.mem_cons_self _ _)
      cases hb : isBlank x with
      | false => rfl
      | true =>
        simp only [isBlank, Bool.or_eq_true, beq_iff_eq] at hb
        rcases hb with rfl | rfl <;> exact absurd hx (by decide)

/-- The member whose key is the one looked for: `json_get` returns the reading
of its value and of what follows. -/
theorem json_get_from_value (key : List Char) (out : CStr) (outlen : Nat)
    (f : JField) (hf : f.wf = true) (hkey : renderBody f.key = key)
    (d : Char) (more : List Char) (hdm : d = '{' ∨ d = ',') (Y : List Char) :
    json_get_from ('"' :: (key ++ ['"'])) out outlen (d :: more) (f.render ++ Y)
      = readValue out outlen (f.val.render ++ (f.ws3 ++ Y)) := by
  have hf2 := hf
  simp only [JField.wf, Bool.and_eq_true, List.all_eq_true] at hf2
  obtain ⟨⟨⟨⟨⟨h0, -⟩, h1⟩, h2⟩, hv⟩, -⟩ := hf2
  obtain ⟨x, V, hxV, hxb⟩ := JValue.render_head f.val hv
  have hdb : isBlank d = false := by rcases hdm with rfl | rfl <;> decide
  have hkc : keyContext (f.ws0.reverse ++ d :: more) = true := by
    rw [keyContext_blanks f.ws0.reverse (fun c hc => h0 c (List.mem_reverse.mp hc)) d more hdb]
    rcases hdm with rfl | rfl <;> decide
  rw [JField.render_append, json_get_from_noquote key out outlen f.ws0 _ _ (blank_ne_quote _ h0),
    json_get_from_step (by simp), hkey, hxV]
  simp only [List.cons_append]
  rw [json_get_step_at_key key out outlen _ f.ws1 f.ws2 x _ hkc h1 h2 hxb]

theorem renderFields_head_sep (f : JField) (fs2 : List JField) (tail : List Char) :
    ∃ d Y, (d = ',' ∨ d = '}') ∧ renderFields (f :: fs2) ++ ('}' :: tail) = f.render ++ d :: Y := by
  cases fs2 with
  | nil => exact ⟨'}', tail, Or.inr rfl, rfl⟩
  | cons a r =>
    exact ⟨',', renderFields (a :: r) ++ ('}' :: tail), Or.inl rfl, by simp [renderFields]⟩

theorem json_get_from_fields_value (key : List Char) (out : CStr) (outlen : Nat)
    (hk : ∀ k ∈ key, k ≠ '"' ∧ k ≠ '\\' ∧ isBlank k = false ∧ k ≠ ':' ∧ k ≠ ',')
    (f : JField) (fs2 : List JField) (tail : List Char)
    (hf : f.wf = true) (hkey : renderBody f.key = key) :
    ∀ (fs1 : List JField) (d : Char) (more : List Char), (d = '{' ∨ d = ',') →
      (∀ g ∈ fs1, g.wf = true ∧ renderBody g.key ≠ key) →
      ∃ d2 Y, (d2 = ',' ∨ d2 = '}')
        ∧ json_get_from ('"' :: (key ++ ['"'])) out outlen (d :: more)
            (renderFields (fs1 ++ f :: fs2) ++ ('}' :: tail))
          = readValue out outlen (f.val.render ++ (f.ws3 ++ d2 :: Y)) := by
  intro fs1
  induction fs1 with
  | nil =>
    intro d more hdm _
    obtain ⟨d2, Y, hd2, hY⟩ := renderFields_head_sep f fs2 tail
    refine ⟨d2, Y, hd2, ?_⟩
    rw [List.nil_append, hY]
    exact json_get_from_value key out outlen f hf hkey d more hdm (d2 :: Y)
  | cons g fs1 ih =>
    intro d more _ hall
    obtain ⟨hg, hne⟩ := hall g (List.mem_cons_self _ _)
    rw [List.cons_append, renderFields_cons g _ (by simp), List.append_assoc,
      List.cons_append]
    obtain ⟨more2, h⟩ := json_get_from_field key out outlen hk g hg hne (d :: more)
      (renderFields (fs1 ++ f :: fs2) ++ ('}' :: tail))
    rw [h]
    exact ih ',' more2 (Or.inr rfl) (fun x hx => hall x (List.mem_cons_of_mem _ hx))

/-- The extractor on a well-formed flat object, for any kind of value: it
returns the reading of the text of the first value written with the key,
followed by blanks and by a comma or the closing brace. -/
theorem json_get_flat_value (fs : List JField) (tail key out : CStr) (outlen : Nat)
    (val : JValue)
    (hwf : ∀ g ∈ fs, g.wf = true)
    (hk : ∀ k ∈ key, k ≠ '"' ∧ k ≠ '\\' ∧ isBlank k = false ∧ k ≠ ':' ∧ k ≠ ',')
    (hkl : key.length ≤ 253)
    (hlook : jLookup fs key = some val) :
    ∃ ws d Y, (∀ c ∈ ws, isBlank c = true) ∧ (d = ',' ∨ d = '}')
      ∧ json_get (renderObj fs ++ tail) key out outlen
          = readValue out outlen (val.render ++ (ws ++ d :: Y)) := by
  obtain ⟨fs1, f, fs2, e, hkey, hval, hall⟩ := jLookup_split fs key _ hlook
  subst e
  have hf := hwf f (by simp)
  have hws : ∀ c ∈ f.ws3, isBlank c = true := by
    have hf2 := hf
    simp only [JField.wf, Bool.and_eq_true, List.all_eq_true] at hf2
    exact hf2.2
  obtain ⟨d2, Y, hd2, h⟩ := json_get_from_fields_value key out outlen hk f fs2 tail hf hkey fs1
    '{' [] (Or.inl rfl) (fun g hg => ⟨hwf g (by simp [hg]), hall g hg⟩)
  refine ⟨f.ws3, d2, Y, hws, hd2, ?_⟩
  rw [json_get_eq_from, keyPattern_eq key hkl, ← hval, ← h]
  show json_get_from _ out outlen []
    ('{' :: ((renderFields (fs1 ++ f :: fs2) ++ ['}']) ++ tail)) = _
  rw [json_get_from_slide (by simp) out outlen [] '{' _
    (by rw [isPrefixOf_cons_ne _ _ _ _ (by decide)]; simp), List.append_assoc]
  rfl

theorem signed_digits_take (l : List Char) (n : Nat) (h : signed_digits l = true) :
    signed_digits (l.take n) = true := by
  cases l with
  | nil => simp [signed_digits]
  | cons c s =>
    cases n with
    | zero => simp [signed_digits]
    | succ m =>
      simp only [signed_digits, Bool.and_eq_true, List.all_eq_true] at h
      simp only [List.take_succ_cons, signed_digits, Bool.and_eq_true, List.all_eq_true]
      exact ⟨h.1, fun x hx => h.2 x (List.mem_of_mem_take hx)⟩

theorem not_numchar_sep (d : Char) (h : d = ',' ∨ d = '}') : isNumChar d = false := by
  rcases h with rfl | rfl <;> decide

theorem blank_not_numchar (c : Char) (h : isBlank c = true) : isNumChar c = false := by
  simp only [isBlank, Bool.or_eq_true, beq_iff_eq] at h
  rcases h with rfl | rfl <;> decide

theorem takeWhile_blanks_sep (ws : List Char) (hws : ∀ c ∈ ws, isBlank c = true) (d : Char)
    (hd : d = ',' ∨ d = '}') (Y : List Char) :
    (ws ++ d :: Y).takeWhile isNumChar = [] := by
  cases ws with
  | nil => simp [List.takeWhile_cons, not_numchar_sep d hd]
  | cons w ws =>
    simp [List.takeWhile_cons, blank_not_numchar w (hws w (List.mem_cons_self _ _))]

/-- C13 (as stated, refuted). In the flat object `{"n":1-2,"m": -45 }` the
value of `n` is unquoted and starts with a digit; `json_get` returns `1-2`,
which has a minus sign after its first character. -/
theorem json_get_number_with_inner_minus :
    (∀ g ∈ minusFields, g.wf = true)
      ∧ jLookup minusFields ['n'] = some (.scalar "1-2".toList)
      ∧ json_get (renderObj minusFields) ['n'] [] 64 = (1, "1-2".toList)
      ∧ signed_digits "1-2".toList = false := by
  decide

/-- C13 (amended). For every well-formed flat line and key whose value is
unquoted and starts with a digit or `-`, `json_get` returns 1 and the value
is the leading run of `-` and digit characters of the text of the value, cut
to `outlen - 1` characters: it holds `-` and decimal digits only, and it is an
optional single leading `-` followed only by digits whenever that run of the
line is one. -/
theorem json_get_number (fs : List JField) (tail key out : CStr) (outlen : Nat)
    (x : Char) (t : List Char)
    (hwf : ∀ g ∈ fs, g.wf = true)
    (hk : ∀ k ∈ key, k ≠ '"' ∧ k ≠ '\\' ∧ isBlank k = false ∧ k ≠ ':' ∧ k ≠ ',')
    (hkl : key.length ≤ 253)
    (hlook : jLookup fs key = some (.scalar (x :: t)))
    (hx : isdigit x = true ∨ x = '-') :
    json_get (renderObj fs ++ tail) key out outlen
        = (1, ((x :: t).takeWhile isNumChar).take (outlen - 1))
      ∧ (∀ c ∈ (json_get (renderObj fs ++ tail) key out outlen).2, c = '-' ∨ isdigit c = true)
      ∧ (signed_digits ((x :: t).takeWhile isNumChar) = true →
          signed_digits (json_get (renderObj fs ++ tail) key out outlen).2 = true) := by
  obtain ⟨ws, d, Y, hws, hd, h⟩ :=
    json_get_flat_value fs tail key out outlen (.scalar (x :: t)) hwf hk hkl hlook
  have hxq : x ≠ '"' := by
    rcases hx with hx | rfl
    · intro e
      rw [e] at hx
      exact absurd hx (by decide)
    · decide
  have hxn : (isdigit x || x == '-') = true := by
    rcases hx with hx | rfl
    · simp [hx]
    · decide
  have hval : json_get (renderObj fs ++ tail) key out outlen
      = (1, ((x :: t).takeWhile isNumChar).take (outlen - 1)) := by
    rw [h]
    simp only [JValue.render, List.cons_append, readValue, hxq, if_false, hxn, if_true]
    rw [copyNumber_eq_takeWhile]
    have := takeWhile_append_stop isNumChar (ws ++ d :: Y) (takeWhile_blanks_sep ws hws d hd Y)
      (x :: t)
    simp only [List.cons_append] at this
    rw [this]
    rfl
  refine ⟨hval, ?_, ?_⟩
  · rw [hval]
    intro c hc
    have hc2 := List.mem_takeWhile_imp (List.mem_of_mem_take hc)
    simp only [isNumChar, Bool.or_eq_true, beq_iff_eq] at hc2
    exact hc2
  · intro hsd
    rw [hval]
    exact signed_digits_take _ _ hsd

theorem json_get_number_witness :
    json_get (renderObj minusFields ++ "\n".toList) ['m'] [] 64
      = (1, ("-45".toList.takeWhile isNumChar).take (64 - 1)) :=
  (json_get_number minusFields "\n".toList ['m'] [] 64 '-' "45".toList (by decide) (by decide)
    (by decide) (by decide) (by decide)).1

/-! ## Proofs: when a stored field is empty -/

theorem rne_div_spec (a b : Nat) (hb : 0 < b) :
    2 * (rne_div a b * b) ≤ 2 * a + b ∧ 2 * a ≤ 2 * (rne_div a b * b) + b := by
  have hqr : a / b * b + a % b = a := Nat.div_add_mod' a b
  have hr : a % b < b := Nat.mod_lt a hb
  have hs : (a / b + 1) * b = a / b * b + b := Nat.succ_mul _ _
  unfold rne_div
  split_ifs <;> (try rw [hs]) <;> constructor <;> omega

theorem exponent_aux_le : ∀ (fuel n j : Nat), n < 2 ^ (j + 1) → exponent_aux fuel n ≤ j := by
  intro fuel
  induction fuel with
  | zero => intro n j _; simp [exponent_aux]
  | succ f ih =>
    intro n j h
    simp only [exponent_aux]
    split
    · omega
    · cases j with
      | zero => omega
      | succ i =>
        have : n / 2 < 2 ^ (i + 1) := by
          rw [Nat.div_lt_iff_lt_mul (by decide)]
          rw [Nat.pow_succ] at h
          exact h
        have := ih (n / 2) i this
        omega

/-- Two roundings to nearest in a row give a nearest number of tenths: with
`m` nearest to `k * P / d` and `t` nearest to `10 * m / P`, the number `c * t`,
where `d = 10 * c`, is within `c / 2` of `k` as soon as `P` is larger than
`d / 2`. -/
theorem nearest_tenths (k P m t c : Nat) (hc : c % 2 = 0) (hP : 5 * c < P)
    (hm1 : 2 * (m * (10 * c)) ≤ 2 * (k * P) + 10 * c)
    (hm2 : 2 * (k * P) ≤ 2 * (m * (10 * c)) + 10 * c)
    (ht1 : 2 * (t * P) ≤ 2 * (10 * m) + P) (ht2 : 2 * (10 * m) ≤ 2 * (t * P) + P) :
    2 * (c * t) ≤ 2 * k + c ∧ 2 * k ≤ 2 * (c * t) + c := by
  obtain ⟨h, rfl⟩ : ∃ h, c = 2 * h := ⟨c / 2, by omega⟩
  have e1 : m * (10 * (2 * h)) = 20 * (h * m) := by ring
  rw [e1] at hm1 hm2
  constructor
  · by_contra hcon
    have h1 : k + h + 1 ≤ 2 * h * t := by omega
    have h2 := Nat.mul_le_mul_right P h1
    have e2 : (k + h + 1) * P = k * P + h * P + P := by ring
    have e3 : 2 * h * t * P = 2 * (h * (t * P)) := by ring
    rw [e2, e3] at h2
    have h3 := Nat.mul_le_mul_left h ht1
    have e4 : h * (2 * (t * P)) = 2 * (h * (t * P)) := by ring
    have e5 : h * (2 * (10 * m) + P) = 20 * (h * m) + h * P := by ring
    rw [e4, e5] at h3
    omega
  · by_contra hcon
    have h1 : 2 * h * t + h + 1 ≤ k := by omega
    have h2 := Nat.mul_le_mul_right P h1
    have e2 : (2 * h * t + h + 1) * P = 2 * (h * (t * P)) + h * P + P := by ring
    rw [e2] at h2
    have h3 := Nat.mul_le_mul_left h ht2
    have e4 : h * (2 * (10 * m)) = 20 * (h * m) := by ring
    have e5 : h * (2 * (t * P) + P) = 2 * (h * (t * P)) + h * P := by ring
    rw [e4, e5] at h3
    omega

theorem fmt_tenths_length (t e : Nat) (h : t / 10 < 10 ^ e) (he : 0 < e) :
    (fmt_tenths t).length ≤ e + 2 := by
  have := toDigits_length_le (t / 10) e h he
  simp only [fmt_tenths, List.length_append, List.length_cons, List.length_nil]
  omega

/-- What `printf_f1` prints for `d ≤ k < 2 ^ 53`, when the quotient `k / d` is
below `2 ^ (j + 1)` and `d / 2 < 2 ^ (52 - j)`: a number of tenths `t` with
`d / 10 * t` within `d / 20` of `k`. -/
theorem printf_f1_nearest (k c j : Nat) (hk : k < 2 ^ 53) (hc : c % 2 = 0) (hc0 : 0 < c)
    (hq : k / (10 * c) < 2 ^ (j + 1)) (hj : j ≤ 52) (hP : 5 * c < 2 ^ (52 - j)) :
    ∃ t, printf_f1 (k : Int) (10 * c) = fmt_tenths t
      ∧ 2 * (c * t) ≤ 2 * k + c ∧ 2 * k ≤ 2 * (c * t) + c := by
  have he : exponent (k / (10 * c)) ≤ j := exponent_aux_le 64 _ j hq
  have hPP : 2 ^ (52 - j) ≤ 2 ^ (52 - exponent (k / (10 * c))) :=
    Nat.pow_le_pow_right (by decide) (by omega)
  have hPpos : 0 < 2 ^ (52 - exponent (k / (10 * c))) := Nat.two_pow_pos _
  refine ⟨rne_div (10 * rne_div (k * 2 ^ (52 - exponent (k / (10 * c)))) (10 * c))
    (2 ^ (52 - exponent (k / (10 * c)))), ?_, ?_⟩
  · have hd : double_of_long k = k := by
      unfold double_of_long
      rw [if_pos hk]
    simp only [printf_f1, double_div, Int.toNat_ofNat, hd]
  · obtain ⟨hm1, hm2⟩ := rne_div_spec (k * 2 ^ (52 - exponent (k / (10 * c)))) (10 * c)
      (by omega)
    obtain ⟨ht1, ht2⟩ := rne_div_spec
      (10 * rne_div (k * 2 ^ (52 - exponent (k / (10 * c)))) (10 * c))
      (2 ^ (52 - exponent (k / (10 * c)))) hPpos
    exact nearest_tenths k _ _ _ c hc (by omega) hm1 hm2 ht1 ht2

theorem toDigitsCore_length_ge : ∀ (f n e : Nat), n < f → 10 ^ e ≤ n →
    e + 1 ≤ (Nat.toDigitsCore 10 f n []).length := by
  intro f
  induction f with
  | zero => intro n e h; omega
  | succ f ih =>
    intro n e hf he
    simp only [Nat.toDigitsCore]
    cases e with
    | zero =>
      split
      · simp
      · rw [Nat.toDigitsCore_lens_eq]
        omega
    | succ e =>
      have h10 : 10 ^ (e + 1) = 10 ^ e * 10 := pow_succ 10 e
      have hp : 0 < 10 ^ e := Nat.pos_pow_of_pos e (by decide)
      have hq : 10 ^ e ≤ n / 10 := by
        rw [Nat.le_div_iff_mul_le (by decide)]
        omega
      have hne : ¬ (n / 10 = 0) := by omega
      rw [if_neg hne, Nat.toDigitsCore_lens_eq]
      have := ih (n / 10) e (by omega) hq
      omega

theorem toDigits_length_ge (k e : Nat) (h : 10 ^ e ≤ k) :
    e + 1 ≤ (Nat.toDigits 10 k).length :=
  toDigitsCore_length_ge (k + 1) k e (by omega) h

theorem double_of_long_near (k : Nat) (hk : k < 2 ^ 63) :
    double_of_long k ≤ k + 512 ∧ k ≤ double_of_long k + 512 := by
  unfold double_of_long
  split_ifs with h
  · omega
  · have he : exponent k ≤ 62 := exponent_aux_le 64 k 62 hk
    have hb : 2 ^ (exponent k - 52) ≤ 2 ^ 10 := Nat.pow_le_pow_right (by decide) (by omega)
    have hb0 : 0 < 2 ^ (exponent k - 52) := Nat.two_pow_pos _
    obtain ⟨a, b⟩ := rne_div_spec k _ hb0
    generalize 2 ^ (exponent k - 52) = B at *
    generalize rne_div k B * B = y at *
    omega

/-- What `printf_f1` prints for the quotient by `1000000` of any `long` from
`1000000` on: a number of tenths `t` with `100000 * t` within `51489` of `k`
(the half tenth, and what the two roundings to `double` can add). -/
theorem printf_f1_near (k : Nat) (h1 : 1000000 ≤ k) (h2 : k < 2 ^ 63) :
    ∃ t, printf_f1 (k : Int) 1000000 = fmt_tenths t
      ∧ 100000 * t ≤ k + 51489 ∧ k ≤ 100000 * t + 51489 := by
  obtain ⟨hx1, hx2⟩ := double_of_long_near k h2
  have he : exponent (double_of_long k / 1000000) ≤ 43 :=
    exponent_aux_le 64 _ 43 (by omega)
  have hP : 2 ^ 9 ≤ 2 ^ (52 - exponent (double_of_long k / 1000000)) :=
    Nat.pow_le_pow_right (by decide) (by omega)
  refine ⟨rne_div (10 * rne_div
      (double_of_long k * 2 ^ (52 - exponent (double_of_long k / 1000000))) 1000000)
    (2 ^ (52 - exponent (double_of_long k / 1000000))), ?_, ?_⟩
  · simp only [printf_f1, double_div, Int.toNat_ofNat]
  · obtain ⟨hm1, hm2⟩ := rne_div_spec
      (double_of_long k * 2 ^ (52 - exponent (double_of_long k / 1000000))) 1000000
      (by decide)
    obtain ⟨ht1, ht2⟩ := rne_div_spec (10 * rne_div
      (double_of_long k * 2 ^ (52 - exponent (double_of_long k / 1000000))) 1000000)
      (2 ^ (52 - exponent (double_of_long k / 1000000))) (Nat.two_pow_pos _)
    generalize 2 ^ (52 - exponent (double_of_long k / 1000000)) = P at *
    generalize double_of_long k = x at *
    generalize rne_div (x * P) 1000000 = m at *
    generalize rne_div (10 * m) P = t at *
    have hx : 100000 * t ≤ x + 50977 ∧ x ≤ 100000 * t + 50977 := by
      constructor
      · by_contra hcon
        have h3 : x + 50978 ≤ 100000 * t := by omega
        have h4 := Nat.mul_le_mul_right P h3
        have e1 : (x + 50978) * P = x * P + 50978 * P := by ring
        have e2 : 100000 * t * P = 100000 * (t * P) := by ring
        rw [e1, e2] at h4
        omega
      · by_contra hcon
        have h3 : 100000 * t + 50978 ≤ x := by omega
        have h4 := Nat.mul_le_mul_right P h3
        have e1 : (100000 * t + 50978) * P = 100000 * (t * P) + 50978 * P := by ring
        rw [e1] at h4
        omega
    omega

theorem fmt_views_thousands (k n : Nat) (hn : 16 ≤ n) (h1 : 1000 ≤ k) (h2 : k < 1000000) :
    ∃ t : Nat, fmt_views printf_f1 (k : Int) n = fmt_tenths t ++ "K".toList
      ∧ |100 * (t : Int) - (k : Int)| ≤ 50 := by
  obtain ⟨t, ht, hle, hge⟩ := printf_f1_nearest k 100 9 (by omega) (by decide) (by decide)
    (by
      have : k / (10 * 100) < 1000 := by omega
      exact lt_trans this (by decide))
    (by decide) (by decide)
  have h10 : (10 * 100 : Nat) = 1000 := rfl
  rw [h10] at ht
  refine ⟨t, ?_, abs_le.mpr ⟨by omega, by omega⟩⟩
  have e1 : ¬ ((k : Int) ≤ 0) := by omega
  have e2 : ¬ ((k : Int) ≥ 1000000) := by omega
  have e3 : (k : Int) ≥ 1000 := by omega
  simp only [fmt_views, e1, e2, e3, if_false, if_true, ht]
  apply snprintf_of_fits
  have := fmt_tenths_length t 4 (by omega) (by decide)
  simp only [List.length_append]
  have : "K".toList.length = 1 := rfl
  omega

theorem fmt_views_millions (k n : Nat) (hn : 16 ≤ n) (h1 : 1000000 ≤ k) (h2 : k < 2 ^ 53) :
    ∃ t : Nat, fmt_views printf_f1 (k : Int) n = fmt_tenths t ++ "M".toList
      ∧ |100000 * (t : Int) - (k : Int)| ≤ 50000 := by
  obtain ⟨t, ht, hle, hge⟩ := printf_f1_nearest k 100000 33 h2 (by decide) (by decide)
    (by
      have : k / (10 * 100000) < 9007199255 := by omega
      exact lt_trans this (by decide))
    (by decide) (by decide)
  have h10 : (10 * 100000 : Nat) = 1000000 := rfl
  rw [h10] at ht
  refine ⟨t, ?_, abs_le.mpr ⟨by omega, by omega⟩⟩
  have e1 : ¬ ((k : Int) ≤ 0) := by omega
  have e2 : (k : Int) ≥ 1000000 := by omega
  simp only [fmt_views, e1, e2, if_false, if_true, ht]
  apply snprintf_of_fits
  have := fmt_tenths_length t 10 (by omega) (by decide)
  simp only [List.length_append]
  have : "M".toList.length = 1 := rfl
  omega

theorem fmt_views_millions_wide (k n : Nat) (hn : 16 ≤ n) (h1 : 1000000 ≤ k)
    (h2 : k + 51500 ≤ 10 ^ 18) :
    ∃ t : Nat, fmt_views printf_f1 (k : Int) n = fmt_tenths t ++ "M".toList
      ∧ |100000 * (t : Int) - (k : Int)| ≤ 51500 := by
  obtain ⟨t, ht, hle, hge⟩ := printf_f1_near k h1 (by omega)
  refine ⟨t, ?_, abs_le.mpr ⟨by omega, by omega⟩⟩
  have e1 : ¬ ((k : Int) ≤ 0) := by omega
  have e2 : (k : Int) ≥ 1000000 := by omega
  simp only [fmt_views, e1, e2, if_false, if_true, ht]
  apply snprintf_of_fits
  have := fmt_tenths_length t 12 (by omega) (by decide)
  simp only [List.length_append]
  have : "M".toList.length = 1 := rfl
  omega

theorem fmt_views_suffix_lost (k : Nat) (h1 : 10 ^ 18 ≤ k) (h2 : k < 2 ^ 63) :
    ∃ t : Nat, fmt_views printf_f1 (k : Int) 16 = fmt_tenths t
      ∧ |100000 * (t : Int) - (k : Int)| ≤ 51500 := by
  obtain ⟨t, ht, hle, hge⟩ := printf_f1_near k (by omega) h2
  refine ⟨t, ?_, abs_le.mpr ⟨by omega, by omega⟩⟩
  have e1 : ¬ ((k : Int) ≤ 0) := by omega
  have e2 : (k : Int) ≥ 1000000 := by omega
  simp only [fmt_views, e1, e2, if_false, if_true, ht, snprintf]
  have hup := toDigits_length_le (t / 10) 13 (by omega) (by decide)
  have hlo := toDigits_length_ge (t / 10) 12 (by omega)
  have hlen : (fmt_tenths t).length = 15 := by
    simp only [fmt_tenths, List.length_append, List.length_cons, List.length_nil]
    omega
  rw [List.take_append_of_le_length (by omega)]
  exact List.take_of_length_le (by omega)

/-- C8 (as stated, refuted). With the 16 characters of `r->views`, the count
`10 ^ 18` is printed `1000000000000.0`: the suffix `M` does not fit.  On a
tie the result follows the binary value of the quotient: 1150 gives `1.1K`,
1250 gives `1.2K` and 1350 gives `1.4K`, which no single rule for halves
gives. -/
theorem fmt_views_drops_suffix :
    fmt_views printf_f1 (10 ^ 18) 16 = "1000000000000.0".toList
      ∧ fmt_views printf_f1 1150 16 = "1.1K".toList
      ∧ fmt_views printf_f1 1250 16 = "1.2K".toList
      ∧ fmt_views printf_f1 1350 16 = "1.4K".toList := by
  decide

/-- C8 (amended). `fmt_views` is total on all integers and, for every buffer of
at least 16 characters (the caller passes 16): for `v ≤ 0` the output is `?`;
for `0 < v < 1000` it is the decimal integer `v`; for `1000 ≤ v < 1000000` it
is a number with one decimal within 0.05 of `v/1000`, followed by `K`; for
`1000000 ≤ v < 2 ^ 53` it is a number with one decimal within 0.05 of
`v/1000000`, followed by `M`; for `1000000 ≤ v ≤ 10 ^ 18 - 51500` it is a
number with one decimal within 0.0515 of `v/1000000`, followed by `M`; for
`10 ^ 18 ≤ v < 2 ^ 63` and the caller's 16 characters it is such a number
without the `M`; for every `v ≥ 1000000` it is what `%.1f` prints for the
`double` quotient, followed by `M`, cut to the first `n - 1` characters.  The
examples: 0 gives `?`, 999 gives `999`, 1500 gives `1.5K`, 2500000 gives
`2.5M`. -/
theorem fmt_views_spec (v : Int) (n : Nat) (hn : 16 ≤ n) :
    (v ≤ 0 → fmt_views printf_f1 v n = "?".toList)
      ∧ (0 < v → v < 1000 → fmt_views printf_f1 v n = Nat.toDigits 10 v.toNat)
      ∧ (1000 ≤ v → v < 1000000 →
          ∃ t : Nat, fmt_views printf_f1 v n = fmt_tenths t ++ "K".toList
            ∧ |100 * (t : Int) - v| ≤ 50)
      ∧ (1000000 ≤ v → v < 2 ^ 53 →
          ∃ t : Nat, fmt_views printf_f1 v n = fmt_tenths t ++ "M".toList
            ∧ |100000 * (t : Int) - v| ≤ 50000)
      ∧ (1000000 ≤ v → v + 51500 ≤ 10 ^ 18 →
          ∃ t : Nat, fmt_views printf_f1 v n = fmt_tenths t ++ "M".toList
            ∧ |100000 * (t : Int) - v| ≤ 51500)
      ∧ (10 ^ 18 ≤ v → v < 2 ^ 63 →
          ∃ t : Nat, fmt_views printf_f1 v 16 = fmt_tenths t
            ∧ |100000 * (t : Int) - v| ≤ 51500)
      ∧ (1000000 ≤ v →
          fmt_views printf_f1 v n = (printf_f1 v 1000000 ++ "M".toList).take (n - 1))
      ∧ fmt_views printf_f1 0 n = "?".toList
      ∧ fmt_views printf_f1 999 n = "999".toList
      ∧ fmt_views printf_f1 1500 n = "1.5K".toList
      ∧ fmt_views printf_f1 2500000 n = "2.5M".toList := by
  have hsmall := fmt_views_small printf_f1
  refine ⟨(hsmall v n (by omega)).1, (hsmall v n (by omega)).2,
    ?_, ?_, ?_, ?_, ?_, ?_, ?_, ?_, ?_⟩
  · intro h1 h2
    obtain ⟨k, rfl⟩ : ∃ k : Nat, v = (k : Int) := ⟨v.toNat, by omega⟩
    exact fmt_views_thousands k n hn (by omega) (by omega)
  · intro h1 h2
    obtain ⟨k, rfl⟩ : ∃ k : Nat, v = (k : Int) := ⟨v.toNat, by omega⟩
    exact fmt_views_millions k n hn (by omega) (by exact_mod_cast h2)
  · intro h1 h2
    obtain ⟨k, rfl⟩ : ∃ k : Nat, v = (k : Int) := ⟨v.toNat, by omega⟩
    exact fmt_views_millions_wide k n hn (by omega) (by exact_mod_cast h2)
  · intro h1 h2
    obtain ⟨k, rfl⟩ : ∃ k : Nat, v = (k : Int) := ⟨v.toNat, by omega⟩
    exact fmt_views_suffix_lost k (by exact_mod_cast h1) (by exact_mod_cast h2)
  · intro h1
    have e1 : ¬ (v ≤ 0) := by omega
    simp only [fmt_views, e1, if_false, h1, ge_iff_le, if_true, snprintf]
  · rw [(hsmall 0 n (by omega)).1 (le_refl _)]
  · rw [(hsmall 999 n (by omega)).2 (by decide) (by decide)]
    decide
  · have e : fmt_views printf_f1 1500 n
        = snprintf n (printf_f1 1500 1000 ++ "K".toList) := by
      simp [fmt_views]
    have e2 : printf_f1 1500 1000 ++ "K".toList = "1.5K".toList := by decide
    rw [e, e2]
    exact snprintf_of_fits n _ (by simp; omega)
  · have e : fmt_views printf_f1 2500000 n
        = snprintf n (printf_f1 2500000 1000000 ++ "M".toList) := by
      simp [fmt_views]
    have e2 : printf_f1 2500000 1000000 ++ "M".toList = "2.5M".toList := by decide
    rw [e, e2]
    exact snprintf_of_fits n _ (by simp; omega)

theorem fmt_views_spec_witness :
    fmt_views printf_f1 1500 16 = "1.5K".toList :=
  (fmt_views_spec 1500 16 (by decide)).2.2.2.2.2.2.2.2.2.1

/-! ## Proofs: the `double` model is normalised -/

theorem exponent_aux_spec : ∀ (fuel n : Nat), 1 ≤ n → n < 2 ^ fuel →
    2 ^ exponent_aux fuel n ≤ n ∧ n < 2 ^ (exponent_aux fuel n + 1) := by
  intro fuel
  induction fuel with
  | zero => intro n h1 h2; simp at h2; omega
  | succ f ih =>
    intro n h1 h2
    simp only [exponent_aux]
    split
    · simp; omega
    · have hf : 2 ^ (f + 1) = 2 ^ f * 2 := pow_succ 2 f
      obtain ⟨a, b⟩ := ih (n / 2) (by omega) (by omega)
      have e1 : 2 ^ (exponent_aux f (n / 2) + 1) = 2 ^ exponent_aux f (n / 2) * 2 :=
        pow_succ 2 _
      have e2 : 2 ^ (exponent_aux f (n / 2) + 1 + 1)
          = 2 ^ (exponent_aux f (n / 2) + 1) * 2 := pow_succ 2 _
      rw [e1] at b
      rw [e2, e1]
      constructor <;> omega

/-- The binary exponent: `2 ^ exponent n ≤ n < 2 ^ (exponent n + 1)` for
`1 ≤ n < 2 ^ 64`. -/
theorem exponent_spec (n : Nat) (h1 : 1 ≤ n) (h2 : n < 2 ^ 64) :
    2 ^ exponent n ≤ n ∧ n < 2 ^ (exponent n + 1) :=
  exponent_aux_spec 64 n h1 h2

theorem rne_div_ge (a b q : Nat) (hb : 0 < b) (h : q * b ≤ a) : q ≤ rne_div a b := by
  obtain ⟨-, h2⟩ := rne_div_spec a b hb
  by_contra hcon
  have h3 : rne_div a b + 1 ≤ q := by omega
  have h4 := Nat.mul_le_mul_right b h3
  rw [Nat.succ_mul] at h4
  omega

theorem rne_div_le (a b q : Nat) (hb : 0 < b) (h : a ≤ q * b) : rne_div a b ≤ q := by
  obtain ⟨h1, -⟩ := rne_div_spec a b hb
  by_contra hcon
  have h3 : q + 1 ≤ rne_div a b := by omega
  have h4 := Nat.mul_le_mul_right b h3
  rw [Nat.succ_mul] at h4
  omega

/-- The quotient of `double_div` is a normal `double`: its significand has 53
bits (or is `2 ^ 53`, the next power of two), and it is the exact quotient
rounded to nearest at that scale. -/
theorem double_div_normal (x d : Nat) (hd : 0 < d) (hx : d ≤ x) (hq : x / d < 2 ^ 53) :
    2 ^ 52 ≤ (double_div x d).1 ∧ (double_div x d).1 ≤ 2 ^ 53
      ∧ (double_div x d).2 ≤ 52
      ∧ 2 * ((double_div x d).1 * d) ≤ 2 * (x * 2 ^ (double_div x d).2) + d
      ∧ 2 * (x * 2 ^ (double_div x d).2) ≤ 2 * ((double_div x d).1 * d) + d := by
  have hq1 : 1 ≤ x / d := (Nat.one_le_div_iff hd).mpr hx
  obtain ⟨he1, he2⟩ := exponent_spec (x / d) hq1 (lt_trans hq (by decide))
  have he : exponent (x / d) ≤ 52 := exponent_aux_le 64 _ 52 hq
  have hlo : 2 ^ exponent (x / d) * d ≤ x :=
    le_trans (Nat.mul_le_mul_right d he1) (Nat.div_mul_le_self x d)
  have hhi : x < 2 ^ (exponent (x / d) + 1) * d := (Nat.div_lt_iff_lt_mul hd).mp he2
  have hs : 2 ^ exponent (x / d) * 2 ^ (52 - exponent (x / d)) = 2 ^ 52 := by
    rw [← pow_add]
    congr 1
    omega
  have hs1 : 2 ^ (exponent (x / d) + 1) * 2 ^ (52 - exponent (x / d)) = 2 ^ 53 := by
    rw [← pow_add]
    congr 1
    omega
  obtain ⟨r1, r2⟩ := rne_div_spec (x * 2 ^ (52 - exponent (x / d))) d hd
  refine ⟨?_, ?_, by simp [double_div], r1, r2⟩
  · apply rne_div_ge _ _ _ hd
    calc 2 ^ 52 * d = 2 ^ exponent (x / d) * d * 2 ^ (52 - exponent (x / d)) := by
          rw [← hs]; ring
      _ ≤ x * 2 ^ (52 - exponent (x / d)) := Nat.mul_le_mul_right _ hlo
  · apply rne_div_le _ _ _ hd
    calc x * 2 ^ (52 - exponent (x / d))
        ≤ 2 ^ (exponent (x / d) + 1) * d * 2 ^ (52 - exponent (x / d)) :=
          Nat.mul_le_mul_right _ (le_of_lt hhi)
      _ = 2 ^ 53 * d := by rw [← hs1]; ring

/-- The conversion of a `long` from `2 ^ 53` on is a normal `double`: a
significand of 53 bits (or `2 ^ 53`) times the power of two of its last
place, within half that power of `v`. -/
theorem double_of_long_normal (v : Nat) (h1 : 2 ^ 53 ≤ v) (h2 : v < 2 ^ 63) :
    ∃ m, double_of_long v = m * 2 ^ (exponent v - 52)
      ∧ 2 ^ 52 ≤ m ∧ m ≤ 2 ^ 53 ∧ 53 ≤ exponent v ∧ exponent v ≤ 62
      ∧ 2 * double_of_long v ≤ 2 * v + 2 ^ (exponent v - 52)
      ∧ 2 * v ≤ 2 * double_of_long v + 2 ^ (exponent v - 52) := by
  obtain ⟨he1, he2⟩ := exponent_spec v (le_trans (by decide) h1) (lt_trans h2 (by decide))
  have he : exponent v ≤ 62 := exponent_aux_le 64 v 62 h2
  have he53 : 53 ≤ exponent v := by
    by_contra hcon
    have : 2 ^ (exponent v + 1) ≤ 2 ^ 53 := Nat.pow_le_pow_right (by decide) (by omega)
    omega
  have hb0 : 0 < 2 ^ (exponent v - 52) := Nat.two_pow_pos _
  have hs : 2 ^ 52 * 2 ^ (exponent v - 52) = 2 ^ exponent v := by
    rw [← pow_add]
    congr 1
    omega
  have hs1 : 2 ^ 53 * 2 ^ (exponent v - 52) = 2 ^ (exponent v + 1) := by
    rw [← pow_add]
    congr 1
    omega
  obtain ⟨r1, r2⟩ := rne_div_spec v _ hb0
  have hd : double_of_long v = rne_div v (2 ^ (exponent v - 52)) * 2 ^ (exponent v - 52) := by
    unfold double_of_long
    rw [if_neg (by omega)]
  refine ⟨rne_div v (2 ^ (exponent v - 52)), hd, ?_, ?_, he53, he, ?_, ?_⟩
  · exact rne_div_ge _ _ _ hb0 (by rw [hs]; exact he1)
  · exact rne_div_le _ _ _ hb0 (by rw [hs1]; exact le_of_lt he2)
  · rw [hd]; exact r1
  · rw [hd]; exact r2

end Ytplay
